import Mathlib

/-!
Verification of the MAGMA backend (portfolio cache store, provider adapters,
and the portfolio valuation engine) against its natural-language
specification.  The Python sources `src/backend/data_pipeline.py` and
`src/backend/portfolio_manager.py` are shallowly embedded: SQLite tables
become lists of row structures, `float` arithmetic becomes exact rational
arithmetic over `ℚ`, exceptions become `Except`, and the module-level
functions become pure Lean functions over an explicit database state.

SQLite semantics modelled here: `INSERT ... ON CONFLICT ... DO UPDATE`
updates every conflicting row (and the connection's `total_changes` counter
counts each executed insert or update, even when the updated values are
byte-for-byte identical to the stored ones); `UNIQUE` constraints make the
conflict target match at most one row in well-formed tables.

Python string semantics modelled here: `str.upper()` / `str.lower()` are
modelled character-wise on the ASCII letters (the tickers, actions and
symbols this code handles); `str.strip()` removes the six Python whitespace
characters from both ends; `float(text)` / `int(text)` are modelled on
finite decimal literals with optional sign, fraction and exponent
(`inf`/`nan`/underscore forms are outside the model).
-/

/- Batteries marks the rational arithmetic `@[irreducible]`, which blocks
`decide`-style evaluation of concrete snapshots; re-allow unfolding locally
(the kernel ignores reducibility attributes, so proofs are unaffected). -/
attribute [local semireducible] Rat.mul Rat.add Rat.sub Rat.inv Rat.ofScientific

namespace Magma

/-! ### Python string primitives -/

/-- The six characters removed by Python `str.strip()`. -/
def pyIsSpace (c : Char) : Bool :=
  c = ' ' || c = '\t' || c = '\n' || c = '\r' || c = '\x0b' || c = '\x0c'

/-- The ASCII lowercase/uppercase letter pairs, driving the character-wise
model of Python `str.upper()` and `str.lower()`. -/
def letterPairs : List (Char × Char) :=
  [('a', 'A'), ('b', 'B'), ('c', 'C'), ('d', 'D'), ('e', 'E'), ('f', 'F'),
   ('g', 'G'), ('h', 'H'), ('i', 'I'), ('j', 'J'), ('k', 'K'), ('l', 'L'),
   ('m', 'M'), ('n', 'N'), ('o', 'O'), ('p', 'P'), ('q', 'Q'), ('r', 'R'),
   ('s', 'S'), ('t', 'T'), ('u', 'U'), ('v', 'V'), ('w', 'W'), ('x', 'X'),
   ('y', 'Y'), ('z', 'Z')]

/-- Character-wise model of Python `str.upper()` (ASCII letters). -/
def pyToUpper (c : Char) : Char :=
  ((letterPairs.find? (fun p => p.1 = c)).map (fun p => p.2)).getD c

/-- Character-wise model of Python `str.lower()` (ASCII letters). -/
def pyToLower (c : Char) : Char :=
  ((letterPairs.find? (fun p => p.2 = c)).map (fun p => p.1)).getD c

/-- A character is one of the 26 ASCII lowercase letters. -/
def isAsciiLower (c : Char) : Bool :=
  (letterPairs.map (fun p => p.1)).contains c

/-- List-level model of Python `str.strip()`. -/
def stripChars (l : List Char) : List Char :=
  ((l.dropWhile pyIsSpace).reverse.dropWhile pyIsSpace).reverse

/-- Python `s.strip()`. -/
def pyStrip (s : String) : String := ⟨stripChars s.toList⟩

/-- Python `s.upper()`. -/
def pyUpper (s : String) : String := ⟨s.toList.map pyToUpper⟩

/-- Python `s.lower()`. -/
def pyLower (s : String) : String := ⟨s.toList.map pyToLower⟩

/-- The ticker/symbol normalization `s.upper().strip()` used throughout
`portfolio_manager.py` and `data_pipeline.py`. -/
def normStr (s : String) : String := pyStrip (pyUpper s)

theorem pyToUpper_pyToUpper (c : Char) : pyToUpper (pyToUpper c) = pyToUpper c := by
  rcases h : letterPairs.find? (fun p => p.1 = c) with _ | p
  · simp [pyToUpper, h]
  · have hm : p ∈ letterPairs := List.mem_of_find?_eq_some h
    simp only [pyToUpper, h, Option.map_some', Option.getD_some]
    fin_cases hm <;> decide

theorem isAsciiLower_pyToUpper (c : Char) : isAsciiLower (pyToUpper c) = false := by
  rcases h : letterPairs.find? (fun p => p.1 = c) with _ | p
  · simp only [pyToUpper, h, Option.map_none', Option.getD_none]
    by_contra hc
    have hc' : isAsciiLower c = true := by
      revert hc; cases isAsciiLower c <;> simp
    have hmem : c ∈ letterPairs.map (fun p => p.1) := by
      simpa [isAsciiLower] using hc'
    rcases List.mem_map.mp hmem with ⟨q, hq, hq1⟩
    have := List.find?_eq_none.mp h q hq
    simp [hq1] at this
  · have hm : p ∈ letterPairs := List.mem_of_find?_eq_some h
    simp only [pyToUpper, h, Option.map_some', Option.getD_some]
    fin_cases hm <;> decide

theorem head_dropWhile_false {p : Char → Bool} {l : List Char} {c : Char}
    (h : (l.dropWhile p).head? = some c) : p c = false := by
  induction l with
  | nil => simp at h
  | cons a l ih =>
    by_cases hp : p a
    · rw [List.dropWhile_cons_of_pos hp] at h
      exact ih h
    · rw [List.dropWhile_cons_of_neg hp] at h
      simp at h
      subst h
      simpa using hp

theorem dropWhile_eq_self_of_head {p : Char → Bool} {l : List Char}
    (h : ∀ c, l.head? = some c → p c = false) : l.dropWhile p = l := by
  cases l with
  | nil => rfl
  | cons a l => exact List.dropWhile_cons_of_neg (by simp [h a rfl])

theorem getLast?_of_suffix {l₁ l₂ : List Char} (h : l₁ <:+ l₂) (hne : l₁ ≠ []) :
    l₂.getLast? = l₁.getLast? := by
  rcases h with ⟨pre, rfl⟩
  rw [List.getLast?_append]
  rcases List.exists_mem_of_ne_nil l₁ hne with ⟨x, _⟩
  rcases List.getLast?_isSome.mpr hne |> Option.isSome_iff_exists.mp with ⟨y, hy⟩
  simp [hy]

theorem stripChars_head {l : List Char} {c : Char}
    (h : (stripChars l).head? = some c) : pyIsSpace c = false := by
  unfold stripChars at h
  set m := l.dropWhile pyIsSpace with hm
  rw [List.head?_reverse] at h
  have hsuf : m.reverse.dropWhile pyIsSpace <:+ m.reverse := List.dropWhile_suffix _
  have hne : m.reverse.dropWhile pyIsSpace ≠ [] := by
    intro heq
    rw [heq] at h
    simp at h
  have hlast : m.reverse.getLast? = (m.reverse.dropWhile pyIsSpace).getLast? :=
    getLast?_of_suffix hsuf hne
  rw [h] at hlast
  rw [List.getLast?_reverse] at hlast
  exact head_dropWhile_false (l := l) hlast

theorem stripChars_getLast {l : List Char} {c : Char}
    (h : (stripChars l).getLast? = some c) : pyIsSpace c = false := by
  unfold stripChars at h
  rw [List.getLast?_reverse] at h
  exact head_dropWhile_false h

theorem stripChars_subset {l : List Char} : stripChars l ⊆ l := by
  intro c hc
  unfold stripChars at hc
  rw [List.mem_reverse] at hc
  have h1 := (List.dropWhile_suffix (l := (l.dropWhile pyIsSpace).reverse) pyIsSpace).subset hc
  rw [List.mem_reverse] at h1
  exact (List.dropWhile_suffix pyIsSpace).subset h1

theorem stripChars_stripChars (l : List Char)
    (h1 : ∀ c, l.head? = some c → pyIsSpace c = false)
    (h2 : ∀ c, l.getLast? = some c → pyIsSpace c = false) :
    stripChars l = l := by
  unfold stripChars
  rw [dropWhile_eq_self_of_head h1]
  rw [dropWhile_eq_self_of_head (by intro c hc; rw [List.head?_reverse] at hc; exact h2 c hc)]
  exact List.reverse_reverse l

/-! ### Normalized-string predicate (for the stored-ticker invariant) -/

/-- A string is uppercase (no ASCII lowercase letter) with no surrounding
Python whitespace. -/
def TickerNormalized (t : String) : Prop :=
  (∀ c ∈ t.toList, isAsciiLower c = false) ∧
  (∀ c, t.toList.head? = some c → pyIsSpace c = false) ∧
  (∀ c, t.toList.getLast? = some c → pyIsSpace c = false)

theorem normStr_normalized (s : String) : TickerNormalized (normStr s) := by
  have htl : (normStr s).toList = stripChars (s.toList.map pyToUpper) := rfl
  refine ⟨?_, ?_, ?_⟩
  · intro c hc
    rw [htl] at hc
    rcases List.mem_map.mp (stripChars_subset hc) with ⟨d, _, rfl⟩
    exact isAsciiLower_pyToUpper d
  · intro c hc
    rw [htl] at hc
    exact stripChars_head hc
  · intro c hc
    rw [htl] at hc
    exact stripChars_getLast hc

/-! ### Data model: rows of the two SQLite stores

`portfolio.db` holds `holdings`, `transactions`, `prices` and
`fundamentals`; `news_cache.db` holds `news`.  Nullable SQL columns become
`Option`; `REAL` becomes `ℚ`. -/

/-- A row of the `holdings` table (`UNIQUE(ticker)`). -/
structure Holding where
  ticker : String
  shares : ℚ
  avg_cost : ℚ
  updated_at : String
deriving DecidableEq

/-- A row of the append-only `transactions` table.  The `at` column is named
`at_time` because `at` is reserved in Lean. -/
structure Txn where
  ticker : String
  action : String
  shares : ℚ
  price : ℚ
  at_time : String
deriving DecidableEq

/-- A `PriceBar` as produced by the price adapters (all fields present). -/
structure PriceBar where
  symbol : String
  date : String
  bopen : ℚ
  bhigh : ℚ
  blow : ℚ
  bclose : ℚ
  badj : ℚ
  volume : ℤ
deriving DecidableEq

/-- A row of the `prices` table (`UNIQUE(symbol, date)`); the OHLCV columns
are nullable in the schema. -/
structure PriceRow where
  symbol : String
  date : String
  ropen : Option ℚ
  rhigh : Option ℚ
  rlow : Option ℚ
  rclose : Option ℚ
  radj : Option ℚ
  volume : Option ℤ
deriving DecidableEq

/-- A row of the `fundamentals` table (`UNIQUE(symbol, key)`). -/
structure FundRow where
  symbol : String
  key : String
  value : Option String
  as_of : String
deriving DecidableEq

/-- A row of the `news` table (`UNIQUE(url)`). -/
structure NewsRow where
  symbol : Option String
  title : String
  url : String
  published : Option String
  summary : Option String
  source : Option String
deriving DecidableEq

/-- The state of `portfolio.db` (the news store is handled separately, as in
the source, which routes news to `news_cache.db`). -/
structure DBState where
  holdings : List Holding
  transactions : List Txn
  prices : List PriceRow
  fundamentals : List FundRow
deriving DecidableEq

/-! ### portfolio_manager.upsert_holding / record_transaction -/

/-- Model of `portfolio_manager.upsert_holding`.  `shares = 0` deletes the
row (the cursor `rowcount` of the DELETE is returned); otherwise the row is
inserted or, on `UNIQUE(ticker)` conflict, replaced, and the connection's
`total_changes` (1) is returned.  `now` stands for `_utcnow_iso()`. -/
def upsert_holding (st : DBState) (ticker : String) (shares avg_cost : ℚ)
    (now : String) : DBState × Nat :=
  if shares = 0 then
    (⟨st.holdings.filter (fun h => ¬(h.ticker = normStr ticker)),
      st.transactions, st.prices, st.fundamentals⟩,
      st.holdings.length
        - (st.holdings.filter (fun h => ¬(h.ticker = normStr ticker))).length)
  else if st.holdings.any (fun h => h.ticker = normStr ticker) then
    (⟨st.holdings.map (fun h =>
        if h.ticker = normStr ticker then ⟨normStr ticker, shares, avg_cost, now⟩ else h),
      st.transactions, st.prices, st.fundamentals⟩, 1)
  else
    (⟨st.holdings ++ [⟨normStr ticker, shares, avg_cost, now⟩],
      st.transactions, st.prices, st.fundamentals⟩, 1)

/-- Model of `portfolio_manager.record_transaction`: lowercases and strips
the action, raises `ValueError` unless it is `buy` or `sell`, and otherwise
appends one row to `transactions` (uppercasing/stripping the ticker). -/
def record_transaction (st : DBState) (ticker action : String) (shares price : ℚ)
    (now : String) : Except String (DBState × Nat) :=
  if pyStrip (pyLower action) = "buy" ∨ pyStrip (pyLower action) = "sell" then
    .ok (⟨st.holdings,
      st.transactions ++ [⟨normStr ticker, pyStrip (pyLower action), shares, price, now⟩],
      st.prices, st.fundamentals⟩, 1)
  else .error "action must be 'buy' or 'sell'"

/-! ### The portfolio-mutation state machine (for the stored-data invariant) -/

/-- The two portfolio mutation operations. -/
inductive PMOp where
  | upsertH (ticker : String) (shares avg_cost : ℚ) (now : String)
  | recordT (ticker action : String) (shares price : ℚ) (now : String)

/-- Apply one mutation; a raised `ValueError` leaves the store unchanged. -/
def applyOp (st : DBState) (op : PMOp) : DBState :=
  match op with
  | .upsertH t sh c now => (upsert_holding st t sh c now).1
  | .recordT t a sh p now =>
    match record_transaction st t a sh p now with
    | .ok r => r.1
    | .error _ => st

/-- The store after a sequence of mutations, starting from empty tables. -/
def runOps (ops : List PMOp) : DBState :=
  ops.foldl applyOp ⟨[], [], [], []⟩

/-- The invariant: every stored holdings ticker and transactions ticker is
normalized, and every stored action is the lowercase `buy` or `sell`. -/
def GoodState (st : DBState) : Prop :=
  (∀ h ∈ st.holdings, TickerNormalized h.ticker) ∧
  (∀ tx ∈ st.transactions,
    TickerNormalized tx.ticker ∧ (tx.action = "buy" ∨ tx.action = "sell") ∧
    tx.action = pyLower tx.action)

theorem goodState_applyOp {st : DBState} (hst : GoodState st) (op : PMOp) :
    GoodState (applyOp st op) := by
  obtain ⟨hh, ht⟩ := hst
  cases op with
  | upsertH t sh c now =>
    simp only [applyOp]
    unfold upsert_holding
    split_ifs with h0 hex
    · exact ⟨fun h hm => hh h (List.mem_of_mem_filter hm), ht⟩
    · refine ⟨fun h hm => ?_, ht⟩
      rcases List.mem_map.mp hm with ⟨h0r, hm0, rfl⟩
      by_cases hc : h0r.ticker = normStr t
      · simpa [hc] using normStr_normalized t
      · simpa [hc] using hh h0r hm0
    · refine ⟨fun h hm => ?_, ht⟩
      rcases List.mem_append.mp hm with hm' | hm'
      · exact hh h hm'
      · rcases List.mem_singleton.mp hm' with rfl
        exact normStr_normalized t
  | recordT t a sh p now =>
    simp only [applyOp]
    unfold record_transaction
    by_cases hc : pyStrip (pyLower a) = "buy" ∨ pyStrip (pyLower a) = "sell"
    · rw [if_pos hc]
      refine ⟨hh, fun tx hm => ?_⟩
      rcases List.mem_append.mp hm with hm' | hm'
      · exact ht tx hm'
      · rcases List.mem_singleton.mp hm' with rfl
        refine ⟨normStr_normalized t, hc, ?_⟩
        rcases hc with hc | hc
        · rw [hc]
          show ("buy" : String) = pyLower "buy"
          decide
        · rw [hc]
          show ("sell" : String) = pyLower "sell"
          decide
    · rw [if_neg hc]
      exact ⟨hh, ht⟩

theorem goodState_runOps (ops : List PMOp) : GoodState (runOps ops) := by
  have key : ∀ (l : List PMOp) (st : DBState), GoodState st →
      GoodState (l.foldl applyOp st) := by
    intro l
    induction l with
    | nil => intro st h; exact h
    | cons op l ih => intro st h; exact ih _ (goodState_applyOp h op)
  refine key ops _ ⟨?_, ?_⟩ <;> intro x hx <;> simp at hx

/-! ### Claims C4 and C10 -/

/-- Claim C4, counterexample: the action argument `"BUY"` is not in the
literal set `{buy, sell}`, yet `record_transaction` succeeds (the code
lowercases and strips the action before validating), so "fails exactly when
the action argument is not in {buy, sell}" is false as stated. -/
theorem record_transaction_c4_counterexample :
    (record_transaction ⟨[], [], [], []⟩ "AAPL" "BUY" 1 2 "t0").isOk = true ∧
    ¬("BUY" = "buy" ∨ "BUY" = "sell") := by
  decide

/-- Claim C4 (amended): `record_transaction` fails with the ValidationError
exactly when the lowercased, stripped action is not in {buy, sell}; on
failure nothing is written (the raise happens before the insert), and on
success exactly one transaction row is appended and no holdings (nor any
other) row is modified. -/
theorem record_transaction_c4 (st : DBState) (t a : String) (sh p : ℚ) (now : String) :
    ((record_transaction st t a sh p now).isOk = false ↔
      ¬(pyStrip (pyLower a) = "buy" ∨ pyStrip (pyLower a) = "sell")) ∧
    (∀ st' n, record_transaction st t a sh p now = .ok (st', n) →
      st'.transactions =
        st.transactions ++ [⟨normStr t, pyStrip (pyLower a), sh, p, now⟩] ∧
      st'.holdings = st.holdings ∧ st'.prices = st.prices ∧
      st'.fundamentals = st.fundamentals ∧ n = 1) := by
  unfold record_transaction
  by_cases hc : pyStrip (pyLower a) = "buy" ∨ pyStrip (pyLower a) = "sell"
  · rw [if_pos hc]
    constructor
    · constructor
      · intro h
        exact Bool.noConfusion h
      · intro h
        exact absurd hc h
    · intro st' n h
      injection h with h
      injection h with hst hn
      subst hst
      subst hn
      exact ⟨rfl, rfl, rfl, rfl, rfl⟩
  · rw [if_neg hc]
    constructor
    · constructor
      · intro _
        exact hc
      · intro _
        rfl
    · intro st' n h
      exact absurd h (by simp)

/-- Witness for C4 (amended) at a concrete successful call. -/
theorem record_transaction_c4_witness :
    record_transaction ⟨[], [], [], []⟩ " msft " "Sell" 2 10 "t1"
        = .ok (⟨[], [⟨"MSFT", "sell", 2, 10, "t1"⟩], [], []⟩, 1) ∧
    (⟨[], [⟨"MSFT", "sell", 2, 10, "t1"⟩], [], []⟩ : DBState).holdings = [] := by
  have h : record_transaction ⟨[], [], [], []⟩ " msft " "Sell" 2 10 "t1"
      = .ok (⟨[], [⟨"MSFT", "sell", 2, 10, "t1"⟩], [], []⟩, 1) := by rfl
  have h2 := (record_transaction_c4 ⟨[], [], [], []⟩ " msft " "Sell" 2 10 "t1").2 _ _ h
  exact ⟨h, h2.2.1⟩

/-- Claim C10: every store reachable by the portfolio mutations from the
empty store has only uppercase, whitespace-free tickers and lowercase
actions in {buy, sell}; mutation inputs are normalized before writing, so
`"BUY"` is accepted, and two tickers with the same normalization address the
same holding row (the upserts are literally equal). -/
theorem portfolio_normalization_c10 (ops : List PMOp) (st : DBState)
    (t1 t2 : String) (heq : normStr t1 = normStr t2) (sh c p : ℚ) (now : String) :
    GoodState (runOps ops) ∧
    upsert_holding st t1 sh c now = upsert_holding st t2 sh c now ∧
    (record_transaction st t1 "BUY" sh p now).isOk = true := by
  refine ⟨goodState_runOps ops, ?_, ?_⟩
  · unfold upsert_holding
    rw [heq]
  · unfold record_transaction
    have hb : pyStrip (pyLower "BUY") = "buy" ∨ pyStrip (pyLower "BUY") = "sell" := by
      decide
    rw [if_pos hb]
    rfl

/-- Witness for C10 at concrete inputs: two tickers differing only in case
and whitespace, and one mutation sequence. -/
theorem portfolio_normalization_c10_witness :
    normStr " aapl" = normStr "AAPL " ∧
    upsert_holding ⟨[], [], [], []⟩ " aapl" 3 4 "t1"
      = upsert_holding ⟨[], [], [], []⟩ "AAPL " 3 4 "t1" :=
  ⟨by decide,
    (portfolio_normalization_c10 [PMOp.upsertH "ibm" 1 2 "t0"] ⟨[], [], [], []⟩
      " aapl" "AAPL " (by decide) 3 4 5 "t1").2.1⟩

/-! ### Python numeric text parsing (`float(text)`, `int(text)`)

Modelled on finite decimal literals: optional surrounding whitespace,
optional sign, digits with optional fraction and optional exponent for
`float`; optional sign and digits for `int`.  Python's `inf`/`nan` and
digit-group underscores are outside the model. -/

/-- Numeric value of a digit list, most significant digit first. -/
def digitsVal (ds : List Char) : ℕ :=
  ds.foldl (fun a c => 10 * a + (c.toNat - 48)) 0

/-- Split an optional leading sign from a character list. -/
def signSplit (cs : List Char) : ℤ × List Char :=
  match cs with
  | '+' :: t => (1, t)
  | '-' :: t => (-1, t)
  | t => (1, t)

/-- Ten raised to an integer power, as a rational. -/
def qpow10 (e : ℤ) : ℚ :=
  if 0 ≤ e then (10 : ℚ) ^ e.toNat else ((10 : ℚ) ^ (-e).toNat)⁻¹

/-- The exponent written after `e`/`E`: an optional sign then one or more
digits consuming the whole remainder. -/
def expVal (cs : List Char) : Option ℤ :=
  if (signSplit cs).2 ≠ [] ∧ (signSplit cs).2.all Char.isDigit then
    some ((signSplit cs).1 * digitsVal (signSplit cs).2)
  else none

/-- Model of Python `float(text)` on decimal literals, as the exact
rational value (`None` when the text does not parse). -/
def pyFloat? (s : String) : Option ℚ :=
  let cs := stripChars s.toList
  let sg : ℚ := (signSplit cs).1
  let cs1 := (signSplit cs).2
  let ids := cs1.takeWhile Char.isDigit
  match cs1.dropWhile Char.isDigit with
  | [] => if ids = [] then none else some (sg * (digitsVal ids : ℚ))
  | c :: r2 =>
    if c = '.' then
      let fds := r2.takeWhile Char.isDigit
      if ids = [] ∧ fds = [] then none
      else
        match r2.dropWhile Char.isDigit with
        | [] => some (sg * ((digitsVal ids : ℚ) + (digitsVal fds : ℚ) / (10 : ℚ) ^ fds.length))
        | d :: r4 =>
          if d = 'e' ∨ d = 'E' then
            (expVal r4).map (fun e =>
              sg * ((digitsVal ids : ℚ) + (digitsVal fds : ℚ) / (10 : ℚ) ^ fds.length)
                * qpow10 e)
          else none
    else if (c = 'e' ∨ c = 'E') ∧ ids ≠ [] then
      (expVal r2).map (fun e => sg * (digitsVal ids : ℚ) * qpow10 e)
    else none

/-- Model of Python `int(text)`: optional surrounding whitespace, optional
sign, one or more digits. -/
def pyInt? (s : String) : Option ℤ :=
  let cs := stripChars s.toList
  if (signSplit cs).2 ≠ [] ∧ (signSplit cs).2.all Char.isDigit then
    some ((signSplit cs).1 * digitsVal (signSplit cs).2)
  else none

/-! ### Coerced read-path values -/

/-- A value as returned by the Python read-path coercions: `None`, an
`int`, a `float` (kept exact as a rational), or the original string. -/
inductive PyVal where
  | vnone
  | vint (z : ℤ)
  | vfloat (q : ℚ)
  | vstr (s : String)
deriving DecidableEq

/-- Python truthiness of a coerced value. -/
def pyTruthy (v : PyVal) : Bool :=
  match v with
  | .vnone => false
  | .vint z => ¬(z = 0)
  | .vfloat q => ¬(q = 0)
  | .vstr s => ¬(s = "")

/-- Model of `data_pipeline._coerce_value`: parse the text as a float;
unparseable text stays a string; a parsed value with no fractional
component becomes an `int`, otherwise a `float`. -/
def coerce_value (v : Option String) : PyVal :=
  match v with
  | none => .vnone
  | some s =>
    match pyFloat? s with
    | none => .vstr s
    | some q => if q.den = 1 then .vint q.num else .vfloat q

/-- Model of `portfolio_manager._coerce_numeric`: when the text contains a
dot, `float(value)` is attempted (the `except` branch retries the same
failing `float(value)`, so failure yields the string back); otherwise
`int(value)` is attempted, falling back to `float(value)`, falling back to
the string. -/
def coerce_numeric (v : Option String) : PyVal :=
  match v with
  | none => .vnone
  | some s =>
    if '.' ∈ s.toList then
      match pyFloat? s with
      | some q => .vfloat q
      | none => .vstr s
    else
      match pyInt? s with
      | some z => .vint z
      | none =>
        match pyFloat? s with
        | some q => .vfloat q
        | none => .vstr s

/-! ### Insertion-ordered dictionaries (Python `dict`) -/

/-- Lookup in an insertion-ordered association list. -/
def alGet {κ β : Type} [DecidableEq κ] (m : List (κ × β)) (k : κ) : Option β :=
  (m.find? (fun p => p.1 = k)).map (fun p => p.2)

/-- Python `d[k] = v`: update the existing slot in place, else append. -/
def alSet {κ β : Type} [DecidableEq κ] (m : List (κ × β)) (k : κ) (v : β) :
    List (κ × β) :=
  if m.any (fun p => p.1 = k) then
    m.map (fun p => if p.1 = k then (k, v) else p)
  else m ++ [(k, v)]

theorem alGet_alSet {κ β : Type} [DecidableEq κ] (m : List (κ × β)) (k : κ) (v : β) :
    alGet (alSet m k v) k = some v := by
  unfold alGet alSet
  by_cases h : m.any (fun p => p.1 = k)
  · rw [if_pos h]
    rcases List.any_eq_true.mp h with ⟨p, hp, hpk⟩
    simp only [decide_eq_true_eq] at hpk
    rw [List.find?_map (fun p : κ × β => if p.1 = k then (k, v) else p) m]
    have : (fun q : κ × β => decide (q.1 = k)) ∘ (fun p : κ × β => if p.1 = k then (k, v) else p)
        = fun p : κ × β => decide (p.1 = k) := by
      funext p
      by_cases hc : p.1 = k <;> simp [hc]
    rw [this]
    rcases hf : m.find? (fun p : κ × β => decide (p.1 = k)) with _ | q
    · rw [List.find?_eq_none] at hf
      exact absurd hpk (by simpa using hf p hp)
    · have hqk : q.1 = k := by
        have h2 := List.find?_some hf
        simpa using h2
      simp [hqk]
  · rw [if_neg h]
    rw [List.find?_append]
    rcases hf : m.find? (fun p : κ × β => decide (p.1 = k)) with _ | q
    · simp
    · exfalso
      apply h
      have hq : q ∈ m := List.mem_of_find?_eq_some hf
      have hqk : q.1 = k := by
        have h2 := List.find?_some hf
        simpa using h2
      exact List.any_eq_true.mpr ⟨q, hq, by simp [hqk]⟩

theorem alGet_alSet_ne {κ β : Type} [DecidableEq κ] (m : List (κ × β)) (k k' : κ)
    (v : β) (hne : k' ≠ k) : alGet (alSet m k v) k' = alGet m k' := by
  unfold alGet alSet
  by_cases h : m.any (fun p => p.1 = k)
  · rw [if_pos h]
    rw [List.find?_map (fun p : κ × β => if p.1 = k then (k, v) else p) m]
    have : (fun q : κ × β => decide (q.1 = k')) ∘ (fun p : κ × β => if p.1 = k then (k, v) else p)
        = fun p : κ × β => decide (p.1 = k') := by
      funext p
      by_cases hc : p.1 = k
      · simp [hc, Ne.symm hne]
      · simp [hc]
    rw [this]
    rcases hf : m.find? (fun p : κ × β => decide (p.1 = k')) with _ | q
    · simp
    · have hqk : q.1 = k' := by
        have h2 := List.find?_some hf
        simpa using h2
      simp [hqk, hne]
  · rw [if_neg h]
    rw [List.find?_append]
    rcases hf : m.find? (fun p : κ × β => decide (p.1 = k')) with _ | q
    · simp [Ne.symm hne]
    · simp

/-! ### Fundamentals read paths -/

/-- One row of the dict-building loop shared by `get_fundamentals` and
`_fetch_fundamentals_for`: rows with a falsy symbol or key are skipped; the
symbol's map is seeded with `{"as_of": row.as_of}` on first contact
(`dict.setdefault`), then the coerced value is stored under the row's key.
`get_fundamentals` instantiates `norm` with upper+strip and `coerce` with
`_coerce_value`; `_fetch_fundamentals_for` uses the raw symbol and
`_coerce_numeric`. -/
def fundStep (norm : String → String) (coerce : Option String → PyVal)
    (acc : List (String × List (String × PyVal))) (r : FundRow) :
    List (String × List (String × PyVal)) :=
  if r.symbol = "" ∨ r.key = "" then acc
  else
    alSet acc (norm r.symbol)
      (alSet ((alGet acc (norm r.symbol)).getD [("as_of", PyVal.vstr r.as_of)])
        r.key (coerce r.value))

/-- Codepoint-wise lexicographic `≤` on strings (SQLite's memcmp TEXT
ordering, restricted to the ASCII data this system stores). -/
def charListLe : List Char → List Char → Bool
  | [], _ => true
  | _ :: _, [] => false
  | a :: as, b :: bs =>
    if a.toNat < b.toNat then true
    else if b.toNat < a.toNat then false
    else charListLe as bs

/-- Codepoint-wise lexicographic `<` on strings. -/
def charListLt : List Char → List Char → Bool
  | [], [] => false
  | [], _ :: _ => true
  | _ :: _, [] => false
  | a :: as, b :: bs =>
    if a.toNat < b.toNat then true
    else if b.toNat < a.toNat then false
    else charListLt as bs

/-- String `≤` as stored-text comparison. -/
def strLeB (a b : String) : Bool := charListLe a.toList b.toList

/-- String `<` as stored-text comparison. -/
def strLtB (a b : String) : Bool := charListLt a.toList b.toList

/-- Stable insertion for an ascending sort by a string key: the new element
goes after existing elements with an equal key, so equal keys keep their
encounter order (modelling `ORDER BY _ ASC` over the scan order). -/
def insAscBy {α : Type} (key : α → String) (x : α) : List α → List α
  | [] => [x]
  | y :: ys => if strLeB (key y) (key x) then y :: insAscBy key x ys else x :: y :: ys

/-- Stable ascending sort by a string key. -/
def sortAscBy {α : Type} (key : α → String) (l : List α) : List α :=
  l.foldl (fun acc x => insAscBy key x acc) []

/-- The rows scanned by `get_fundamentals`, in query order: filtered to the
normalized requested symbols when the list is non-empty (`IN (...)`), then
ordered by symbol ascending. -/
def processedRows (fundamentals : List FundRow) (symbols : List String) :
    List FundRow :=
  sortAscBy (fun r => r.symbol)
    (if symbols = [] then fundamentals
     else fundamentals.filter (fun r => (symbols.map normStr).contains r.symbol))

/-- Model of `data_pipeline.get_fundamentals`: fold the dict-building loop
over the query rows with the symbol-normalizing keying and
`_coerce_value`. -/
def get_fundamentals (fundamentals : List FundRow) (symbols : List String) :
    List (String × List (String × PyVal)) :=
  (processedRows fundamentals symbols).foldl (fundStep normStr coerce_value) []

/-- Model of `portfolio_manager._fetch_fundamentals_for`: empty ticker list
short-circuits to an empty dict; otherwise the selected rows are folded in
scan order with raw-symbol keying and `_coerce_numeric`. -/
def fetch_fundamentals_for (fundamentals : List FundRow) (tickers : List String) :
    List (String × List (String × PyVal)) :=
  if tickers = [] then []
  else
    (fundamentals.filter (fun r => (tickers.map normStr).contains r.symbol)).foldl
      (fundStep id coerce_numeric) []

/-! ### The portfolio valuation engine (`get_portfolio_data`) -/

/-- Model of `_latest_close_for`: among the price rows for the normalized
ticker, the close of the row with the greatest date (`ORDER BY date DESC
LIMIT 1`); `none` when there is no row or the stored close is NULL. -/
def latest_close_for (prices : List PriceRow) (ticker : String) : Option ℚ :=
  ((prices.filter (fun r => r.symbol = normStr ticker)).foldl
    (fun acc r =>
      match acc with
      | none => some r
      | some b => if strLtB b.date r.date then some r else some b) none).bind
    (fun r => r.rclose)

/-- One enriched holding of the snapshot. -/
structure HoldingOut where
  ticker : String
  shares : ℚ
  avg_cost : ℚ
  last : ℚ
  market_value : ℚ
  cost_basis : ℚ
  pnl : ℚ
  pnl_pct : ℚ
  fundamentals : List (String × PyVal)
  weight : ℚ
deriving DecidableEq

/-- One entry of the sector exposure list.  The bucket key is the raw
`fundamentals["sector"]` value (any coerced value can be a dict key in
Python), defaulting to the string `Unclassified` when falsy or absent. -/
structure SectorSlice where
  sector : PyVal
  weight : ℚ
  value : ℚ
deriving DecidableEq

/-- One entry of the top-5 largest positions projection. -/
structure LargestPos where
  ticker : String
  weight : ℚ
  market_value : ℚ
  pnl_pct : ℚ
deriving DecidableEq

/-- The snapshot summary.  The optional health score is `none` when the
`health_score` key is omitted from the summary dict. -/
structure Summary where
  total_value : ℚ
  total_cost_basis : ℚ
  total_pnl : ℚ
  pnl_pct : ℚ
  largest_positions : List LargestPos
  sector_exposure : List SectorSlice
  health_score : Option ℚ
deriving DecidableEq

/-- The value returned by `get_portfolio_data`. -/
structure Snapshot where
  holdings : List HoldingOut
  summary : Summary
deriving DecidableEq

/-- The per-holding enrichment loop body of `get_portfolio_data`: default
the latest close to 0 when absent, derive market value, cost basis, PnL and
guarded PnL percent, attach the fundamentals map (empty when none), and
initialize the weight to 0 (populated after totals are known). -/
def mkHoldingOut (prices : List PriceRow)
    (fmap : List (String × List (String × PyVal))) (h : Holding) : HoldingOut :=
  ⟨h.ticker, h.shares, h.avg_cost,
    (latest_close_for prices h.ticker).getD 0,
    h.shares * (latest_close_for prices h.ticker).getD 0,
    h.shares * h.avg_cost,
    h.shares * (latest_close_for prices h.ticker).getD 0 - h.shares * h.avg_cost,
    (if h.shares * h.avg_cost = 0 then 0
     else (h.shares * (latest_close_for prices h.ticker).getD 0 - h.shares * h.avg_cost)
        / (h.shares * h.avg_cost) * 100),
    (alGet fmap (normStr h.ticker)).getD [], 0⟩

/-- The second pass that populates a holding's weight. -/
def setWeight (h : HoldingOut) (w : ℚ) : HoldingOut :=
  ⟨h.ticker, h.shares, h.avg_cost, h.last, h.market_value, h.cost_basis, h.pnl,
    h.pnl_pct, h.fundamentals, w⟩

/-- The holdings table ordered by ticker (`ORDER BY ticker ASC`). -/
def sortedHoldings (st : DBState) : List Holding :=
  sortAscBy (fun h => h.ticker) st.holdings

/-- The fundamentals map fetched for the snapshot's tickers. -/
def fmapOf (st : DBState) : List (String × List (String × PyVal)) :=
  fetch_fundamentals_for st.fundamentals ((sortedHoldings st).map (fun h => h.ticker))

/-- The enriched holdings before weight assignment. -/
def hs1Of (st : DBState) : List HoldingOut :=
  (sortedHoldings st).map (mkHoldingOut st.prices (fmapOf st))

/-- The accumulated portfolio total market value. -/
def totalValueOf (st : DBState) : ℚ :=
  ((hs1Of st).map (fun h => h.market_value)).sum

/-- The accumulated portfolio total cost basis. -/
def totalCostOf (st : DBState) : ℚ :=
  ((hs1Of st).map (fun h => h.cost_basis)).sum

/-- The enriched holdings after the weight pass (`if total_value:` guards
the pass, so weights stay 0 when the total is zero). -/
def weightedHoldings (st : DBState) : List HoldingOut :=
  if totalValueOf st = 0 then hs1Of st
  else (hs1Of st).map (fun h => setWeight h (h.market_value / totalValueOf st))

/-- Python truthiness test and `or "Unclassified"` default on the holding's
`fundamentals["sector"]`. -/
def sectorKey (h : HoldingOut) : PyVal :=
  if pyTruthy ((alGet h.fundamentals "sector").getD PyVal.vnone) then
    (alGet h.fundamentals "sector").getD PyVal.vnone
  else PyVal.vstr "Unclassified"

/-- Stable insertion for a descending sort by a rational key (modelling
Python's stable `sorted(..., reverse=True)`). -/
def insDescBy {α : Type} (key : α → ℚ) (x : α) : List α → List α
  | [] => [x]
  | y :: ys => if key x ≤ key y then y :: insDescBy key x ys else x :: y :: ys

/-- Stable descending sort by a rational key. -/
def sortDescBy {α : Type} (key : α → ℚ) (l : List α) : List α :=
  l.foldl (fun acc x => insDescBy key x acc) []

/-- The sector buckets (a dict from sector value to summed market value,
in insertion order). -/
def sectorBuckets (hs : List HoldingOut) : List (PyVal × ℚ) :=
  hs.foldl (fun acc h =>
    alSet acc (sectorKey h) ((alGet acc (sectorKey h)).getD 0 + h.market_value)) []

/-- The sector exposure list: buckets sorted by value descending, each with
its zero-guarded weight. -/
def sectorExposure (hs : List HoldingOut) (total : ℚ) : List SectorSlice :=
  (sortDescBy (fun p => p.2) (sectorBuckets hs)).map
    (fun p => ⟨p.1, if total = 0 then 0 else p.2 / total, p.2⟩)

/-- The summary before the optional health score is attached. -/
def summaryPre (st : DBState) : Summary :=
  ⟨totalValueOf st, totalCostOf st, totalValueOf st - totalCostOf st,
    (if totalCostOf st = 0 then 0
     else (totalValueOf st - totalCostOf st) / totalCostOf st * 100),
    ((sortDescBy (fun h => h.market_value) (weightedHoldings st)).take 5).map
      (fun h => ⟨h.ticker, h.weight, h.market_value, h.pnl_pct⟩),
    sectorExposure (weightedHoldings st) (totalValueOf st), none⟩

/-- The payload handed to the pluggable scoring function:
`{"summary": summary, "holdings": holdings}`. -/
def payloadOf (st : DBState) : Summary × List HoldingOut :=
  (summaryPre st, weightedHoldings st)

/-- Possible outcomes of calling the pluggable `formulas.apply_formula`. -/
inductive FormulaOutcome where
  | raisesNotImplemented
  | raisesOther
  | retNone
  | retNonNumeric
  | retNum (q : ℚ)

/-- Model of `_clamp_score` with its default bounds. -/
def clamp_score (v : ℚ) : ℚ := max 0 (min 10 v)

/-- Model of `_run_formula`: `none` for the formula models an absent or
attribute-less `formulas` module; every raised error, `None` result or
non-numeric result yields `none`; a numeric result is clamped. -/
def run_formula (formula : Option (Summary × List HoldingOut → FormulaOutcome))
    (p : Summary × List HoldingOut) : Option ℚ :=
  match formula with
  | none => none
  | some f =>
    match f p with
    | .raisesNotImplemented => none
    | .raisesOther => none
    | .retNone => none
    | .retNonNumeric => none
    | .retNum q => some (clamp_score q)

/-- Attach a health score to a summary (`summary["health_score"] = score`). -/
def setHealth (s : Summary) (q : ℚ) : Summary :=
  ⟨s.total_value, s.total_cost_basis, s.total_pnl, s.pnl_pct,
    s.largest_positions, s.sector_exposure, some q⟩

/-- Model of `portfolio_manager.get_portfolio_data`: the enriched holdings
and summary, with the health score attached exactly when `_run_formula`
returned a value. -/
def get_portfolio_data (st : DBState)
    (formula : Option (Summary × List HoldingOut → FormulaOutcome)) : Snapshot :=
  match run_formula formula (payloadOf st) with
  | none => ⟨weightedHoldings st, summaryPre st⟩
  | some q => ⟨weightedHoldings st, setHealth (summaryPre st) q⟩

theorem get_portfolio_data_holdings (st : DBState)
    (f : Option (Summary × List HoldingOut → FormulaOutcome)) :
    (get_portfolio_data st f).holdings = weightedHoldings st := by
  unfold get_portfolio_data
  cases run_formula f (payloadOf st) <;> rfl

theorem get_portfolio_data_total_value (st : DBState)
    (f : Option (Summary × List HoldingOut → FormulaOutcome)) :
    (get_portfolio_data st f).summary.total_value = totalValueOf st := by
  unfold get_portfolio_data
  cases run_formula f (payloadOf st) <;> rfl

theorem get_portfolio_data_total_cost (st : DBState)
    (f : Option (Summary × List HoldingOut → FormulaOutcome)) :
    (get_portfolio_data st f).summary.total_cost_basis = totalCostOf st := by
  unfold get_portfolio_data
  cases run_formula f (payloadOf st) <;> rfl

theorem get_portfolio_data_pnl_pct (st : DBState)
    (f : Option (Summary × List HoldingOut → FormulaOutcome)) :
    (get_portfolio_data st f).summary.pnl_pct = (summaryPre st).pnl_pct := by
  unfold get_portfolio_data
  cases run_formula f (payloadOf st) <;> rfl

theorem hs1_weight_zero {st : DBState} {h : HoldingOut} (hm : h ∈ hs1Of st) :
    h.weight = 0 := by
  unfold hs1Of at hm
  rcases List.mem_map.mp hm with ⟨h0, _, rfl⟩
  rfl

theorem hs1_pnl_pct_zero {st : DBState} {h : HoldingOut} (hm : h ∈ hs1Of st)
    (hcb : h.cost_basis = 0) : h.pnl_pct = 0 := by
  unfold hs1Of at hm
  rcases List.mem_map.mp hm with ⟨h0, _, rfl⟩
  have hcb' : h0.shares * h0.avg_cost = 0 := hcb
  show (if h0.shares * h0.avg_cost = 0 then (0 : ℚ) else _) = 0
  rw [if_pos hcb']

theorem weighted_mem_shape {st : DBState} {h : HoldingOut}
    (hm : h ∈ weightedHoldings st) :
    ∃ h0 ∈ hs1Of st, h.cost_basis = h0.cost_basis ∧ h.pnl_pct = h0.pnl_pct := by
  unfold weightedHoldings at hm
  by_cases hT : totalValueOf st = 0
  · rw [if_pos hT] at hm
    exact ⟨h, hm, rfl, rfl⟩
  · rw [if_neg hT] at hm
    rcases List.mem_map.mp hm with ⟨h0, hm0, rfl⟩
    exact ⟨h0, hm0, rfl, rfl⟩

/-! ### Claims C2, C3, C5 -/

/-- Claim C2, counterexample: a portfolio whose total value is negative
(one short position) is "not positive", yet its holding's weight is 1, not
0 — the code's weight pass is guarded by `total_value != 0`, not
`total_value > 0`. -/
theorem weight_sum_c2_counterexample :
    ¬(0 < (get_portfolio_data
        ⟨[⟨"NEG", -1, 0, "t0"⟩], [],
          [⟨"NEG", "2024-01-02", none, none, none, some 1, none, none⟩], []⟩
        none).summary.total_value) ∧
    ((get_portfolio_data
        ⟨[⟨"NEG", -1, 0, "t0"⟩], [],
          [⟨"NEG", "2024-01-02", none, none, none, some 1, none, none⟩], []⟩
        none).holdings.map (fun h => h.weight)) = [1] := by
  decide

/-- Claim C2 (amended): the per-holding weights of a snapshot sum to
exactly 1 whenever the summary's total value is nonzero (in particular
whenever it is positive; exactness subsumes the 1e-9 tolerance in this
rational model of the float arithmetic), and every weight is 0 whenever
the total value is exactly zero. -/
theorem weight_sum_c2 (st : DBState)
    (f : Option (Summary × List HoldingOut → FormulaOutcome)) :
    ((get_portfolio_data st f).summary.total_value ≠ 0 →
      (((get_portfolio_data st f).holdings.map (fun h => h.weight)).sum = 1)) ∧
    ((get_portfolio_data st f).summary.total_value = 0 →
      ∀ h ∈ (get_portfolio_data st f).holdings, h.weight = 0) := by
  rw [get_portfolio_data_holdings, get_portfolio_data_total_value]
  constructor
  · intro hT
    unfold weightedHoldings
    rw [if_neg hT, List.map_map]
    have hcomp : ((fun h : HoldingOut => h.weight) ∘
        fun h => setWeight h (h.market_value / totalValueOf st))
        = fun h : HoldingOut => h.market_value * (totalValueOf st)⁻¹ := by
      funext h
      show h.market_value / totalValueOf st = h.market_value * (totalValueOf st)⁻¹
      rw [div_eq_mul_inv]
    rw [hcomp, List.sum_map_mul_right]
    exact mul_inv_cancel₀ hT
  · intro hT h hm
    unfold weightedHoldings at hm
    rw [if_pos hT] at hm
    exact hs1_weight_zero hm

/-- Witness for C2 (amended) at a concrete portfolio with positive total
value. -/
theorem weight_sum_c2_witness :
    (get_portfolio_data
        ⟨[⟨"AAPL", 2, 3, "t0"⟩], [],
          [⟨"AAPL", "2024-01-02", none, none, none, some 5, none, none⟩], []⟩
        none).summary.total_value ≠ 0 ∧
    (((get_portfolio_data
        ⟨[⟨"AAPL", 2, 3, "t0"⟩], [],
          [⟨"AAPL", "2024-01-02", none, none, none, some 5, none, none⟩], []⟩
        none).holdings.map (fun h => h.weight)).sum = 1) := by
  have hT : (get_portfolio_data
      ⟨[⟨"AAPL", 2, 3, "t0"⟩], [],
        [⟨"AAPL", "2024-01-02", none, none, none, some 5, none, none⟩], []⟩
      none).summary.total_value ≠ 0 := by decide
  exact ⟨hT,
    (weight_sum_c2
      ⟨[⟨"AAPL", 2, 3, "t0"⟩], [],
        [⟨"AAPL", "2024-01-02", none, none, none, some 5, none, none⟩], []⟩
      none).1 hT⟩

/-- Claim C3: the snapshot never divides by zero — a holding with zero cost
basis (e.g. zero average cost) gets `pnl_pct = 0`, and a portfolio with
zero total cost basis gets `summary.pnl_pct = 0`; both divisions are
guarded in the code. -/
theorem zero_division_c3 (st : DBState)
    (f : Option (Summary × List HoldingOut → FormulaOutcome)) :
    (∀ h ∈ (get_portfolio_data st f).holdings, h.cost_basis = 0 → h.pnl_pct = 0) ∧
    ((get_portfolio_data st f).summary.total_cost_basis = 0 →
      (get_portfolio_data st f).summary.pnl_pct = 0) := by
  constructor
  · intro h hm hcb
    rw [get_portfolio_data_holdings] at hm
    rcases weighted_mem_shape hm with ⟨h0, hm0, hcbeq, hpeq⟩
    rw [hpeq]
    exact hs1_pnl_pct_zero hm0 (hcbeq ▸ hcb)
  · intro hc
    rw [get_portfolio_data_total_cost] at hc
    rw [get_portfolio_data_pnl_pct]
    show (if totalCostOf st = 0 then (0 : ℚ) else _) = 0
    rw [if_pos hc]

/-- Witness for C3 at a concrete portfolio holding with `avg_cost = 0`
(hence zero cost basis) and an empty-cost portfolio. -/
theorem zero_division_c3_witness :
    HoldingOut.pnl_pct ⟨"FREE", 4, 0, 7, 28, 0, 28, 0, [], 1⟩ = 0 ∧
    (get_portfolio_data ⟨[], [], [], []⟩ none).summary.pnl_pct = 0 := by
  have hmem : (⟨"FREE", 4, 0, 7, 28, 0, 28, 0, [], 1⟩ : HoldingOut) ∈
      (get_portfolio_data
        ⟨[⟨"FREE", 4, 0, "t0"⟩], [],
          [⟨"FREE", "2024-01-02", none, none, none, some 7, none, none⟩], []⟩
        none).holdings := by decide
  have hcost : (⟨"FREE", 4, 0, 7, 28, 0, 28, 0, [], 1⟩ : HoldingOut).cost_basis = 0 := by
    decide
  have hempty : (get_portfolio_data ⟨[], [], [], []⟩ none).summary.total_cost_basis = 0 := by
    decide
  exact ⟨(zero_division_c3
      ⟨[⟨"FREE", 4, 0, "t0"⟩], [],
        [⟨"FREE", "2024-01-02", none, none, none, some 7, none, none⟩], []⟩
      none).1 ⟨"FREE", 4, 0, 7, 28, 0, 28, 0, [], 1⟩ hmem hcost,
    (zero_division_c3 ⟨[], [], [], []⟩ none).2 hempty⟩

/-- Claim C5: when the pluggable scoring function returns a numeric score,
the summary carries a health score clamped into [0, 10]; when the scoring
module is absent, raises not-implemented, or raises any other error, the
health-score field is simply omitted (`none`) and no error escapes (the
model is a total function). -/
theorem health_score_c5 (st : DBState)
    (f : Option (Summary × List HoldingOut → FormulaOutcome)) :
    (∀ g q, f = some g → g (payloadOf st) = FormulaOutcome.retNum q →
      (get_portfolio_data st f).summary.health_score = some (clamp_score q) ∧
      0 ≤ clamp_score q ∧ clamp_score q ≤ 10) ∧
    (f = none → (get_portfolio_data st f).summary.health_score = none) ∧
    (∀ g, f = some g →
      (g (payloadOf st) = FormulaOutcome.raisesNotImplemented ∨
        g (payloadOf st) = FormulaOutcome.raisesOther) →
      (get_portfolio_data st f).summary.health_score = none) := by
  refine ⟨?_, ?_, ?_⟩
  · intro g q hf hg
    subst hf
    unfold get_portfolio_data run_formula
    simp only [hg]
    refine ⟨rfl, le_max_left 0 _, ?_⟩
    exact max_le (by norm_num) (min_le_left _ _)
  · intro hf
    subst hf
    rfl
  · intro g hf hg
    subst hf
    unfold get_portfolio_data run_formula
    rcases hg with hg | hg <;> simp only [hg] <;> rfl

/-- Witness for C5: a concrete scoring function returning 42 yields a
stored health score of 10 (clamped). -/
theorem health_score_c5_witness :
    (get_portfolio_data ⟨[], [], [], []⟩
        (some (fun _ => FormulaOutcome.retNum 42))).summary.health_score
      = some (clamp_score 42) ∧ clamp_score 42 = 10 :=
  ⟨((health_score_c5 ⟨[], [], [], []⟩ (some (fun _ => FormulaOutcome.retNum 42))).1
      (fun _ => FormulaOutcome.retNum 42) 42 rfl rfl).1,
    by decide⟩

/-! ### The prices store (`upsert_prices`) -/

/-- The `(symbol, date)` key of a stored price row (`UNIQUE(symbol, date)`). -/
def priceKey (r : PriceRow) : String × String := (r.symbol, r.date)

/-- The `(symbol, date)` conflict target of an incoming bar. -/
def barKey (b : PriceBar) : String × String := (b.symbol, b.date)

/-- The row stored for a bar.  A conflict-update replaces every OHLCV
column with the excluded values while keeping symbol/date, which equal the
bar's, so insert and update produce the same row. -/
def barRow (b : PriceBar) : PriceRow :=
  ⟨b.symbol, b.date, some b.bopen, some b.bhigh, some b.blow, some b.bclose,
    some b.badj, some b.volume⟩

/-- Whether the table holds a row with the given key. -/
def hasKey (tbl : List PriceRow) (k : String × String) : Bool :=
  tbl.any (fun r => priceKey r = k)

/-- One `INSERT ... ON CONFLICT(symbol, date) DO UPDATE` statement of the
`executemany` batch. -/
def upsertPriceBar (tbl : List PriceRow) (b : PriceBar) : List PriceRow :=
  if hasKey tbl (barKey b) then
    tbl.map (fun r => if priceKey r = barKey b then barRow b else r)
  else tbl ++ [barRow b]

/-- Model of `data_pipeline.upsert_prices`: empty input short-circuits to 0
without touching the store; otherwise each bar executes one
insert-or-update and the connection's `total_changes` counter grows by one
per executed statement — SQLite counts a conflict-update even when the
written values are identical to the stored ones. -/
def upsert_prices (tbl : List PriceRow) (bars : List PriceBar) :
    List PriceRow × Nat :=
  if bars = [] then (tbl, 0)
  else bars.foldl (fun acc b => (upsertPriceBar acc.1 b, acc.2 + 1)) (tbl, 0)

/-- The last bar of a batch carrying a given key. -/
def lastBarFor (bars : List PriceBar) (k : String × String) : Option PriceBar :=
  (bars.filter (fun b => barKey b = k)).getLast?

theorem priceKey_barRow (b : PriceBar) : priceKey (barRow b) = barKey b := rfl

theorem upsertPriceBar_pos {tbl : List PriceRow} {b : PriceBar}
    (h : hasKey tbl (barKey b) = true) :
    upsertPriceBar tbl b
      = tbl.map (fun r => if priceKey r = barKey b then barRow b else r) := by
  unfold upsertPriceBar
  rw [if_pos h]

theorem upsertPriceBar_neg {tbl : List PriceRow} {b : PriceBar}
    (h : ¬(hasKey tbl (barKey b) = true)) :
    upsertPriceBar tbl b = tbl ++ [barRow b] := by
  unfold upsertPriceBar
  rw [if_neg h]

theorem priceKey_update (b : PriceBar) (r : PriceRow) :
    priceKey (if priceKey r = barKey b then barRow b else r) = priceKey r := by
  by_cases h : priceKey r = barKey b
  · rw [if_pos h, priceKey_barRow, h]
  · rw [if_neg h]

theorem hasKey_map_update (tbl : List PriceRow) (b : PriceBar) (k : String × String) :
    hasKey (tbl.map (fun r => if priceKey r = barKey b then barRow b else r)) k
      = hasKey tbl k := by
  unfold hasKey
  induction tbl with
  | nil => rfl
  | cons r tl ih => simp only [List.map_cons, List.any_cons, ih, priceKey_update]

theorem hasKey_upsert (tbl : List PriceRow) (b : PriceBar) (k : String × String) :
    hasKey (upsertPriceBar tbl b) k = (hasKey tbl k || decide (barKey b = k)) := by
  unfold upsertPriceBar
  by_cases h : hasKey tbl (barKey b)
  · rw [if_pos h, hasKey_map_update]
    by_cases hk : barKey b = k
    · subst hk
      simp [h]
    · simp [hk]
  · rw [if_neg h]
    unfold hasKey
    rw [List.any_append]
    simp [priceKey_barRow]

theorem hasKey_fold_of_hasKey {bars : List PriceBar} {tbl : List PriceRow}
    {k : String × String} (h : hasKey tbl k = true) :
    hasKey (bars.foldl upsertPriceBar tbl) k = true := by
  induction bars generalizing tbl with
  | nil => exact h
  | cons b bs ih => exact ih (by simp [hasKey_upsert, h])

theorem hasKey_fold_of_mem {bars : List PriceBar} {tbl : List PriceRow} {b : PriceBar}
    (hb : b ∈ bars) : hasKey (bars.foldl upsertPriceBar tbl) (barKey b) = true := by
  induction bars generalizing tbl with
  | nil => cases hb
  | cons b' bs ih =>
    rcases List.mem_cons.mp hb with rfl | hb'
    · show hasKey (bs.foldl upsertPriceBar (upsertPriceBar tbl b)) (barKey b) = true
      exact hasKey_fold_of_hasKey (by simp [hasKey_upsert])
    · exact ih hb'

theorem lastBarFor_cons (b : PriceBar) (bs : List PriceBar) (k : String × String) :
    lastBarFor (b :: bs) k
      = if barKey b = k then (lastBarFor bs k).or (some b) else lastBarFor bs k := by
  unfold lastBarFor
  by_cases h : barKey b = k
  · rw [if_pos h, List.filter_cons_of_pos (by simp [h])]
    rw [show b :: (bs.filter fun b' => decide (barKey b' = k))
        = [b] ++ (bs.filter fun b' => decide (barKey b' = k)) from rfl]
    rw [List.getLast?_append]
    rfl
  · rw [if_neg h, List.filter_cons_of_neg (by simp [h])]

theorem lastBarFor_append_self (bs : List PriceBar) (b : PriceBar) :
    lastBarFor (bs ++ [b]) (barKey b) = some b := by
  unfold lastBarFor
  rw [List.filter_append, List.getLast?_append]
  simp

theorem lastBarFor_append_ne (bs : List PriceBar) (b : PriceBar) (k : String × String)
    (h : ¬(barKey b = k)) : lastBarFor (bs ++ [b]) k = lastBarFor bs k := by
  unfold lastBarFor
  rw [List.filter_append]
  simp [h]

/-- Every row of an upserted table whose key occurs in the batch carries
exactly the values of the last batch bar with that key. -/
theorem fold_row_eq {bars : List PriceBar} {tbl : List PriceRow} :
    ∀ r ∈ bars.foldl upsertPriceBar tbl, ∀ b0,
      lastBarFor bars (priceKey r) = some b0 → r = barRow b0 := by
  induction bars using List.reverseRecOn with
  | nil =>
    intro r hr b0 h0
    simp [lastBarFor] at h0
  | append_singleton bs b ih =>
    intro r hr b0 h0
    rw [List.foldl_append] at hr
    simp only [List.foldl_cons, List.foldl_nil] at hr
    by_cases hk : hasKey (bs.foldl upsertPriceBar tbl) (barKey b)
    · rw [upsertPriceBar_pos hk] at hr
      rcases List.mem_map.mp hr with ⟨r0, hr0, rfl⟩
      by_cases hkey : priceKey r0 = barKey b
      · rw [if_pos hkey] at h0 ⊢
        rw [priceKey_barRow, lastBarFor_append_self] at h0
        injection h0 with h0
        rw [h0]
      · rw [if_neg hkey] at h0 ⊢
        rw [lastBarFor_append_ne bs b _ (fun hc => hkey hc.symm)] at h0
        exact ih r0 hr0 b0 h0
    · rw [upsertPriceBar_neg hk] at hr
      rcases List.mem_append.mp hr with hr' | hr'
      · have hne : ¬(priceKey r = barKey b) := by
          intro hc
          rw [hasKey] at hk
          exact hk (List.any_eq_true.mpr ⟨r, hr', by simp [hc]⟩)
        rw [lastBarFor_append_ne bs b _ (fun hc => hne hc.symm)] at h0
        exact ih r hr' b0 h0
      · rcases List.mem_singleton.mp hr' with rfl
        rw [priceKey_barRow, lastBarFor_append_self] at h0
        injection h0 with h0
        rw [h0]

/-- When every batch key is already present, the upsert fold is a pure
row-wise overwrite. -/
theorem fold_of_all_present : ∀ (bars : List PriceBar) (tbl : List PriceRow),
    (∀ b ∈ bars, hasKey tbl (barKey b) = true) →
    bars.foldl upsertPriceBar tbl
      = tbl.map (fun r => ((lastBarFor bars (priceKey r)).map barRow).getD r) := by
  intro bars
  induction bars with
  | nil =>
    intro tbl _
    simp [lastBarFor]
  | cons b bs ih =>
    intro tbl h
    have hkb : hasKey tbl (barKey b) = true := h b (List.mem_cons_self b bs)
    show bs.foldl upsertPriceBar (upsertPriceBar tbl b) = _
    rw [upsertPriceBar_pos hkb]
    rw [ih (tbl.map (fun r => if priceKey r = barKey b then barRow b else r))
      (fun b' hb' => by rw [hasKey_map_update]; exact h b' (List.mem_cons_of_mem b hb'))]
    rw [List.map_map]
    apply List.map_congr_left
    intro r _
    show ((lastBarFor bs (priceKey
        (if priceKey r = barKey b then barRow b else r))).map barRow).getD
        (if priceKey r = barKey b then barRow b else r)
      = ((lastBarFor (b :: bs) (priceKey r)).map barRow).getD r
    rw [priceKey_update, lastBarFor_cons]
    by_cases hkey : priceKey r = barKey b
    · rw [if_pos hkey, if_pos hkey.symm]
      rcases hlast : lastBarFor bs (priceKey r) with _ | x
      · rfl
      · rfl
    · rw [if_neg hkey, if_neg (fun hc => hkey hc.symm)]

/-- Replaying an identical batch leaves the stored rows unchanged. -/
theorem fold_replay (tbl : List PriceRow) (bars : List PriceBar) :
    bars.foldl upsertPriceBar (bars.foldl upsertPriceBar tbl) =
      bars.foldl upsertPriceBar tbl := by
  rw [fold_of_all_present bars (bars.foldl upsertPriceBar tbl)
    (fun b hb => hasKey_fold_of_mem hb)]
  have : ∀ r ∈ bars.foldl upsertPriceBar tbl,
      ((lastBarFor bars (priceKey r)).map barRow).getD r = r := by
    intro r hr
    rcases hlast : lastBarFor bars (priceKey r) with _ | b0
    · rfl
    · show barRow b0 = r
      exact (fold_row_eq r hr b0 hlast).symm
  rw [List.map_congr_left this]
  exact List.map_id _

theorem upsert_prices_count (tbl : List PriceRow) (bars : List PriceBar) :
    bars.foldl (fun acc b => (upsertPriceBar acc.1 b, acc.2 + 1)) (tbl, 0)
      = (bars.foldl upsertPriceBar tbl, bars.length) := by
  have key : ∀ (bs : List PriceBar) (t : List PriceRow) (n : Nat),
      bs.foldl (fun acc b => (upsertPriceBar acc.1 b, acc.2 + 1)) (t, n)
        = (bs.foldl upsertPriceBar t, n + bs.length) := by
    intro bs
    induction bs with
    | nil => intro t n; simp
    | cons b bs ih =>
      intro t n
      show bs.foldl _ (upsertPriceBar t b, n + 1) = _
      rw [ih]
      simp only [List.length_cons, List.foldl_cons]
      have hn : n + 1 + bs.length = n + (bs.length + 1) := by omega
      rw [hn]
  rw [key]
  simp

/-- Claim C1, counterexample: re-upserting an identical single bar leaves
the stored row unchanged but returns a changedCount of 1, not 0 — SQLite's
change counter counts the conflict-update even though every written value
equals the stored one. -/
theorem upsert_prices_c1_counterexample :
    (upsert_prices (upsert_prices [] [⟨"AAPL", "2024-01-02", 1, 2, 1, 3, 3, 100⟩]).1
        [⟨"AAPL", "2024-01-02", 1, 2, 1, 3, 3, 100⟩]).1
      = (upsert_prices [] [⟨"AAPL", "2024-01-02", 1, 2, 1, 3, 3, 100⟩]).1 ∧
    (upsert_prices (upsert_prices [] [⟨"AAPL", "2024-01-02", 1, 2, 1, 3, 3, 100⟩]).1
        [⟨"AAPL", "2024-01-02", 1, 2, 1, 3, 3, 100⟩]).2 = 1 ∧
    ¬((upsert_prices (upsert_prices [] [⟨"AAPL", "2024-01-02", 1, 2, 1, 3, 3, 100⟩]).1
        [⟨"AAPL", "2024-01-02", 1, 2, 1, 3, 3, 100⟩]).2 = 0) := by
  decide

/-- Claim C1 (amended): calling `upsert_prices` a second time with the
identical batch returns exactly the first call's result — the stored rows
are unchanged, and the changedCount equals the number of bars in the batch
(each same-keyed row counts as updated even when its values are unchanged),
the same count as the first call rather than 0. -/
theorem upsert_prices_c1 (tbl : List PriceRow) (bars : List PriceBar) :
    upsert_prices (upsert_prices tbl bars).1 bars = upsert_prices tbl bars ∧
    (upsert_prices tbl bars).2 = bars.length := by
  unfold upsert_prices
  by_cases hb : bars = []
  · subst hb
    exact ⟨rfl, rfl⟩
  · simp only [if_neg hb, upsert_prices_count]
    exact ⟨by rw [fold_replay], trivial⟩

/-! ### The news store (`upsert_news`)

Entries reaching the store have a title and a url (the adapter drops
entries missing either), so they share the `NewsRow` shape; the adapter
always constructs them with `symbol` as tagged (or `None`). -/

/-- Row update on a url conflict: title/published/summary/source are set to
the excluded values; symbol (and url) are not in the update list. -/
def newsUpdate (r : NewsRow) (e : NewsRow) : NewsRow :=
  ⟨r.symbol, e.title, r.url, e.published, e.summary, e.source⟩

/-- One `INSERT ... ON CONFLICT(url) DO UPDATE` statement of the batch. -/
def upsertNewsRow (tbl : List NewsRow) (e : NewsRow) : List NewsRow :=
  if tbl.any (fun r => r.url = e.url) then
    tbl.map (fun r => if r.url = e.url then newsUpdate r e else r)
  else tbl ++ [e]

/-- Model of `data_pipeline.upsert_news`: empty input returns 0 without
touching the store; otherwise one statement per entry, the connection's
`total_changes` counting one change per executed insert-or-update. -/
def upsert_news (tbl : List NewsRow) (entries : List NewsRow) :
    List NewsRow × Nat :=
  if entries = [] then (tbl, 0)
  else entries.foldl (fun acc e => (upsertNewsRow acc.1 e, acc.2 + 1)) (tbl, 0)

/-- Number of stored rows carrying a url. -/
def urlCount (tbl : List NewsRow) (u : String) : Nat :=
  (tbl.filter (fun r => r.url = u)).length

/-- The first stored row carrying a url. -/
def rowForUrl (tbl : List NewsRow) (u : String) : Option NewsRow :=
  tbl.find? (fun r => r.url = u)

theorem newsUrl_update (e r : NewsRow) :
    (if r.url = e.url then newsUpdate r e else r).url = r.url := by
  by_cases h : r.url = e.url
  · rw [if_pos h]
    exact h.symm ▸ rfl
  · rw [if_neg h]

theorem upsertNewsRow_pos {tbl : List NewsRow} {e : NewsRow}
    (h : tbl.any (fun r => r.url = e.url) = true) :
    upsertNewsRow tbl e = tbl.map (fun r => if r.url = e.url then newsUpdate r e else r) := by
  unfold upsertNewsRow
  rw [if_pos h]

theorem upsertNewsRow_neg {tbl : List NewsRow} {e : NewsRow}
    (h : ¬(tbl.any (fun r => r.url = e.url) = true)) :
    upsertNewsRow tbl e = tbl ++ [e] := by
  unfold upsertNewsRow
  rw [if_neg h]

theorem urlCount_map_update (tbl : List NewsRow) (e : NewsRow) (u : String) :
    urlCount (tbl.map (fun r => if r.url = e.url then newsUpdate r e else r)) u
      = urlCount tbl u := by
  unfold urlCount
  induction tbl with
  | nil => rfl
  | cons r tl ih =>
    rw [List.map_cons, List.filter_cons, List.filter_cons, newsUrl_update]
    by_cases h : decide (r.url = u) = true
    · rw [if_pos h, if_pos h, List.length_cons, List.length_cons, ih]
    · rw [if_neg h, if_neg h, ih]

theorem urlCount_upsert_of_pos {tbl : List NewsRow} {u : String}
    (h : 0 < urlCount tbl u) (e : NewsRow) :
    urlCount (upsertNewsRow tbl e) u = urlCount tbl u := by
  by_cases hc : tbl.any (fun r => r.url = e.url) = true
  · rw [upsertNewsRow_pos hc, urlCount_map_update]
  · rw [upsertNewsRow_neg hc]
    unfold urlCount at h ⊢
    rw [List.filter_append]
    have he : ¬(e.url = u) := by
      intro heq
      rcases List.length_pos.mp h with _
      rcases List.exists_mem_of_length_pos h with ⟨r, hr⟩
      have hru : r.url = u := by simpa using (List.mem_filter.mp hr).2
      exact hc (List.any_eq_true.mpr ⟨r, (List.mem_filter.mp hr).1,
        by simp [hru, heq]⟩)
    simp [he]

theorem urlCount_fold_of_pos {entries : List NewsRow} {tbl : List NewsRow}
    {u : String} (h : 0 < urlCount tbl u) :
    urlCount (entries.foldl upsertNewsRow tbl) u = urlCount tbl u := by
  induction entries generalizing tbl with
  | nil => rfl
  | cons e es ih =>
    show urlCount (es.foldl upsertNewsRow (upsertNewsRow tbl e)) u = urlCount tbl u
    rw [ih (by rw [urlCount_upsert_of_pos h e]; exact h), urlCount_upsert_of_pos h e]

theorem rowForUrl_upsert {tbl : List NewsRow} {u : String} {r : NewsRow}
    (h : rowForUrl tbl u = some r) (e : NewsRow) :
    rowForUrl (upsertNewsRow tbl e) u
      = some (if e.url = u then newsUpdate r e else r) := by
  have hru : r.url = u := by
    have h2 := List.find?_some h
    simpa using h2
  by_cases hc : tbl.any (fun r' => r'.url = e.url) = true
  · rw [upsertNewsRow_pos hc]
    unfold rowForUrl at h ⊢
    rw [List.find?_map (fun r' => if r'.url = e.url then newsUpdate r' e else r') tbl]
    have hcomp : ((fun x : NewsRow => decide (x.url = u)) ∘
        (fun r' => if r'.url = e.url then newsUpdate r' e else r'))
        = fun x : NewsRow => decide (x.url = u) := by
      funext x
      simp [newsUrl_update]
    rw [hcomp, h]
    by_cases he : e.url = u
    · have : r.url = e.url := by rw [hru, he]
      simp only [Option.map_some', this, if_pos, he]
    · have : ¬(r.url = e.url) := by rw [hru]; exact fun hc' => he hc'.symm
      simp only [Option.map_some', this, if_neg, he]
  · rw [upsertNewsRow_neg hc]
    unfold rowForUrl at h ⊢
    rw [List.find?_append, h]
    have he : ¬(e.url = u) := by
      intro heq
      exact hc (List.any_eq_true.mpr ⟨r, List.mem_of_find?_eq_some h,
        by simp [hru, heq]⟩)
    rw [if_neg he]
    rfl

theorem rowForUrl_fold {entries : List NewsRow} {tbl : List NewsRow} {u : String}
    {r : NewsRow} (h : rowForUrl tbl u = some r) :
    rowForUrl (entries.foldl upsertNewsRow tbl) u
      = some (entries.foldl
          (fun acc e => if e.url = u then newsUpdate acc e else acc) r) := by
  induction entries generalizing tbl r with
  | nil => exact h
  | cons e es ih => exact ih (rowForUrl_upsert h e)

theorem foldUpd_symbol_url (es : List NewsRow) (u : String) : ∀ (r : NewsRow),
    (es.foldl (fun acc e => if e.url = u then newsUpdate acc e else acc) r).symbol
        = r.symbol ∧
    (es.foldl (fun acc e => if e.url = u then newsUpdate acc e else acc) r).url
        = r.url := by
  induction es with
  | nil => exact fun r => ⟨rfl, rfl⟩
  | cons e es ih =>
    intro r
    rw [List.foldl_cons]
    rcases ih (if e.url = u then newsUpdate r e else r) with ⟨hs, hu⟩
    rw [hs, hu]
    by_cases he : e.url = u
    · rw [if_pos he]
      exact ⟨rfl, rfl⟩
    · rw [if_neg he]
      exact ⟨rfl, rfl⟩

theorem newsUpdate_congr {a b : NewsRow} (x : NewsRow) (hs : a.symbol = b.symbol)
    (hu : a.url = b.url) : newsUpdate a x = newsUpdate b x := by
  unfold newsUpdate
  rw [hs, hu]

theorem foldUpd_last : ∀ (es : List NewsRow) (r : NewsRow) (u : String) (e : NewsRow),
    (es.filter (fun x => x.url = u)).getLast? = some e →
    es.foldl (fun acc x => if x.url = u then newsUpdate acc x else acc) r
      = newsUpdate r e := by
  intro es
  induction es using List.reverseRecOn with
  | nil =>
    intro r u e h
    simp at h
  | append_singleton bs x ih =>
    intro r u e h
    rw [List.foldl_append, List.foldl_cons, List.foldl_nil]
    rw [List.filter_append] at h
    by_cases hx : x.url = u
    · rw [if_pos hx]
      rw [List.filter_cons_of_pos (by simp [hx]), List.filter_nil,
        List.getLast?_concat] at h
      injection h with h
      subst h
      rcases foldUpd_symbol_url bs u r with ⟨hs, hu⟩
      exact newsUpdate_congr x hs hu
    · rw [if_neg hx]
      rw [List.filter_cons_of_neg (by simp [hx]), List.filter_nil,
        List.append_nil] at h
      exact ih r u e h

/-! ### Claim C7 -/

/-- Claim C7: when a batch conflicts on url with a stored row, the stored
title/published/summary/source become those of the (last) incoming item
with that url while the stored symbol survives (first write wins for
symbol), and exactly one row for that url remains stored. -/
theorem upsert_news_c7 (tbl : List NewsRow) (entries : List NewsRow) (u : String)
    (r e : NewsRow) (hr : rowForUrl tbl u = some r) (h1 : urlCount tbl u = 1)
    (he : (entries.filter (fun x => x.url = u)).getLast? = some e) :
    urlCount (upsert_news tbl entries).1 u = 1 ∧
    rowForUrl (upsert_news tbl entries).1 u
      = some ⟨r.symbol, e.title, r.url, e.published, e.summary, e.source⟩ := by
  have hne : entries ≠ [] := by
    intro hcon
    subst hcon
    simp at he
  have hfold : (upsert_news tbl entries).1 = entries.foldl upsertNewsRow tbl := by
    unfold upsert_news
    rw [if_neg hne]
    have key : ∀ (es : List NewsRow) (t : List NewsRow) (n : Nat),
        (es.foldl (fun acc e' => (upsertNewsRow acc.1 e', acc.2 + 1)) (t, n)).1
          = es.foldl upsertNewsRow t := by
      intro es
      induction es with
      | nil => intro t n; rfl
      | cons e' es ih => intro t n; exact ih _ _
    exact key entries tbl 0
  rw [hfold]
  constructor
  · rw [urlCount_fold_of_pos (by rw [h1]; exact Nat.one_pos)]
    exact h1
  · rw [rowForUrl_fold hr, foldUpd_last entries r u e he]
    rfl

/-- Witness for C7 at a concrete store and batch: the conflicting update
rewrites the content fields and keeps the first-written symbol. -/
theorem upsert_news_c7_witness :
    urlCount (upsert_news [⟨some "AAPL", "old title", "u1", none, none, none⟩]
        [⟨none, "new title", "u1", some "p", some "s", some "src"⟩]).1 "u1" = 1 ∧
    rowForUrl (upsert_news [⟨some "AAPL", "old title", "u1", none, none, none⟩]
        [⟨none, "new title", "u1", some "p", some "s", some "src"⟩]).1 "u1"
      = some ⟨some "AAPL", "new title", "u1", some "p", some "s", some "src"⟩ :=
  upsert_news_c7 [⟨some "AAPL", "old title", "u1", none, none, none⟩]
    [⟨none, "new title", "u1", some "p", some "s", some "src"⟩] "u1"
    ⟨some "AAPL", "old title", "u1", none, none, none⟩
    ⟨none, "new title", "u1", some "p", some "s", some "src"⟩
    (by decide) (by decide) (by decide)

/-! ### Post-hoc symbol tagging in `fetch_news_rss` -/

/-- Python f-string rendering of an optional value (`None` prints as the
string `None`; the parsed summary can be `None`). -/
def pyShowOpt (v : Option String) : String :=
  match v with
  | some s => s
  | none => "None"

/-- Whether the needle starts the haystack (character-wise). -/
def startsSeq : List Char → List Char → Bool
  | [], _ => true
  | _ :: _, [] => false
  | a :: as, b :: bs => a = b && startsSeq as bs

/-- Whether the needle occurs contiguously in the haystack (Python `in`). -/
def containsSeq (needle : List Char) : List Char → Bool
  | [] => startsSeq needle []
  | b :: bs => startsSeq needle (b :: bs) || containsSeq needle bs

/-- Python `needle in hay` on strings. -/
def strContainsB (hay needle : String) : Bool :=
  containsSeq needle.toList hay.toList

/-- The uppercased symbol set `set(s.upper() for s in symbols)`, modelled
in first-insertion order (CPython set iteration order is
implementation-defined and in particular never guaranteed to follow the
given list; the tagging claims are settled against this fixed order). -/
def upperSet (symbols : List String) : List String :=
  (symbols.map pyUpper).foldl (fun acc s => if s ∈ acc then acc else acc ++ [s]) []

/-- The text scanned for an entry: `f"{title} {summary}".upper()`. -/
def tagText (e : NewsRow) : String :=
  pyUpper (e.title ++ " " ++ pyShowOpt e.summary)

/-- The inner tagging loop over the symbol set for one entry: every
matching symbol overwrites `e["symbol"]` (there is no break), so the final
tag is the last matching symbol in iteration order, or the initial value
when none matches. -/
def tagScan (upper : List String) (text : String) (init : Option String) :
    Option String :=
  upper.foldl (fun acc s =>
    if strContainsB (" " ++ text ++ " ") (" " ++ s ++ " ") then some s else acc) init

/-- Replace an entry's symbol tag. -/
def setSymbol (e : NewsRow) (s : Option String) : NewsRow :=
  ⟨s, e.title, e.url, e.published, e.summary, e.source⟩

/-- Model of the post-hoc symbol tagging of `fetch_news_rss`: skipped when
the symbol list is empty/absent, otherwise applied to every entry. -/
def tagEntries (symbols : List String) (entries : List NewsRow) : List NewsRow :=
  if symbols = [] then entries
  else entries.map (fun e => setSymbol e (tagScan (upperSet symbols) (tagText e) e.symbol))

/-- A fold that overwrites an optional accumulator at every hit computes
the last hit (or keeps the initial value). -/
theorem foldl_overwrite {α : Type} (p : α → Bool) (l : List α) (init : Option α) :
    l.foldl (fun acc s => if p s then some s else acc) init
      = ((l.filter p).getLast?).or init := by
  induction l generalizing init with
  | nil => rfl
  | cons a l ih =>
    rw [List.foldl_cons, List.filter_cons]
    by_cases h : p a = true
    · rw [if_pos h, if_pos h, ih]
      rw [show (a :: l.filter p) = [a] ++ l.filter p from rfl, List.getLast?_append]
      rcases (l.filter p).getLast? with _ | x <;> rfl
    · rw [if_neg h, if_neg h, ih]

/-! ### Claim C8 -/

/-- Claim C8, counterexample: with symbols `["AAPL", "MSFT"]` and an entry
whose text contains both (each as a space-delimited word, as witnessed by
the substring check on `" AAPL "`), the tag ends up `MSFT` — the loop has
no break and overwrites on every match — so the entry is not tagged with
the first matching ticker of the given list. -/
theorem news_tagging_c8_counterexample :
    (tagEntries ["AAPL", "MSFT"]
        [⟨none, "AAPL MSFT rally", "u1", none, some "", none⟩]).map
        (fun e => e.symbol) = [some "MSFT"] ∧
    strContainsB
      (" " ++ tagText ⟨none, "AAPL MSFT rally", "u1", none, some "", none⟩ ++ " ")
      " AAPL " = true ∧
    ¬(some "MSFT" = (some "AAPL" : Option String)) := by
  decide

/-- Claim C8 (amended): for a non-empty symbol list, the tagger scans each
entry's title-plus-summary text case-insensitively (both sides uppercased,
the symbol matched as a space-delimited substring) and tags the entry with
the LAST matching symbol in the iteration order over the deduplicated
uppercased symbol set (first-insertion order in this model of the Python
set), keeping the prior symbol when nothing matches; at most one tag per
entry (the single symbol field). -/
theorem news_tagging_c8 (symbols : List String) (entries : List NewsRow)
    (hs : symbols ≠ []) :
    tagEntries symbols entries = entries.map (fun e =>
      setSymbol e ((((upperSet symbols).filter (fun s =>
        strContainsB (" " ++ tagText e ++ " ") (" " ++ s ++ " "))).getLast?).or
          e.symbol)) := by
  unfold tagEntries
  rw [if_neg hs]
  apply List.map_congr_left
  intro e _
  unfold tagScan
  rw [foldl_overwrite]

/-- Witness for C8 at a concrete symbol list and entry. -/
theorem news_tagging_c8_witness :
    tagEntries ["AAPL"] [⟨none, "AAPL up", "u1", none, some "", none⟩]
      = [⟨none, "AAPL up", "u1", none, some "", none⟩].map (fun e =>
          setSymbol e ((((upperSet ["AAPL"]).filter (fun s =>
            strContainsB (" " ++ tagText e ++ " ") (" " ++ s ++ " "))).getLast?).or
              e.symbol)) :=
  news_tagging_c8 ["AAPL"] [⟨none, "AAPL up", "u1", none, some "", none⟩]
    (by decide)

/-! ### Fundamentals fold lemmas (for claims C6 and C9) -/

theorem fundStep_skip {norm : String → String} {coerce : Option String → PyVal}
    {acc : List (String × List (String × PyVal))} {r : FundRow}
    (h : r.symbol = "" ∨ r.key = "") : fundStep norm coerce acc r = acc := by
  unfold fundStep
  rw [if_pos h]

theorem fundStep_go {norm : String → String} {coerce : Option String → PyVal}
    {acc : List (String × List (String × PyVal))} {r : FundRow}
    (h : ¬(r.symbol = "" ∨ r.key = "")) :
    fundStep norm coerce acc r
      = alSet acc (norm r.symbol)
          (alSet ((alGet acc (norm r.symbol)).getD [("as_of", PyVal.vstr r.as_of)])
            r.key (coerce r.value)) := by
  unfold fundStep
  rw [if_neg h]

theorem fundStep_alGet_ne {norm : String → String} {coerce : Option String → PyVal}
    {acc : List (String × List (String × PyVal))} {r : FundRow} {S : String}
    (hne : ¬(norm r.symbol = S)) :
    alGet (fundStep norm coerce acc r) S = alGet acc S := by
  by_cases h : r.symbol = "" ∨ r.key = ""
  · rw [fundStep_skip h]
  · rw [fundStep_go h]
    exact alGet_alSet_ne _ _ _ _ (fun hc => hne hc.symm)

theorem fold_alGet_none {norm : String → String} {coerce : Option String → PyVal}
    {rows : List FundRow} {S : String} :
    ∀ acc, (∀ r ∈ rows, ¬(norm r.symbol = S)) →
    alGet (rows.foldl (fundStep norm coerce) acc) S = alGet acc S := by
  induction rows with
  | nil => intro acc _; rfl
  | cons r rows ih =>
    intro acc h
    rw [List.foldl_cons]
    rw [ih (fundStep norm coerce acc r) (fun t ht => h t (List.mem_cons_of_mem r ht))]
    exact fundStep_alGet_ne (h r (List.mem_cons_self r rows))

theorem mem_insAscBy {α : Type} (key : α → String) (x a : α) :
    ∀ l : List α, a ∈ insAscBy key x l → a = x ∨ a ∈ l := by
  intro l
  induction l with
  | nil =>
    intro h
    rcases List.mem_singleton.mp h with rfl
    exact Or.inl rfl
  | cons y ys ih =>
    intro h
    unfold insAscBy at h
    by_cases hc : strLeB (key y) (key x) = true
    · rw [if_pos hc] at h
      rcases List.mem_cons.mp h with rfl | h'
      · exact Or.inr (List.mem_cons_self _ _)
      · rcases ih h' with rfl | h''
        · exact Or.inl rfl
        · exact Or.inr (List.mem_cons_of_mem _ h'')
    · rw [if_neg hc] at h
      rcases List.mem_cons.mp h with rfl | h'
      · exact Or.inl rfl
      · exact Or.inr h'

theorem mem_sortAscBy {α : Type} (key : α → String) (l : List α) :
    ∀ a ∈ sortAscBy key l, a ∈ l := by
  have key2 : ∀ (l : List α) (acc : List α) (a : α),
      a ∈ l.foldl (fun acc x => insAscBy key x acc) acc → a ∈ acc ∨ a ∈ l := by
    intro l
    induction l with
    | nil => intro acc a h; exact Or.inl h
    | cons x xs ih =>
      intro acc a h
      rw [List.foldl_cons] at h
      rcases ih _ a h with h' | h'
      · rcases mem_insAscBy key x a acc h' with rfl | h''
        · exact Or.inr (List.mem_cons_self _ _)
        · exact Or.inl h''
      · exact Or.inr (List.mem_cons_of_mem _ h')
  intro a ha
  rcases key2 l [] a ha with h | h
  · cases h
  · exact h

theorem mem_processedRows {tbl : List FundRow} {symbols : List String} {r : FundRow}
    (h : r ∈ processedRows tbl symbols) : r ∈ tbl := by
  unfold processedRows at h
  have h2 := mem_sortAscBy (fun t => t.symbol) _ r h
  by_cases hs : symbols = []
  · rw [if_pos hs] at h2
    exact h2
  · rw [if_neg hs] at h2
    exact List.mem_of_mem_filter h2

/-- The singleton seed map `{"as_of": as_of}` contains `as_of`. -/
theorem alGet_seed (v : String) :
    alGet [("as_of", PyVal.vstr v)] "as_of" = some (PyVal.vstr v) := rfl

/-- Every symbol map of the folded dict contains the key `as_of`. -/
theorem fundStep_asof_invariant {norm : String → String}
    {coerce : Option String → PyVal}
    {acc : List (String × List (String × PyVal))} {r : FundRow}
    (hinv : ∀ S m, alGet acc S = some m → ∃ v, alGet m "as_of" = some v) :
    ∀ S m, alGet (fundStep norm coerce acc r) S = some m →
      ∃ v, alGet m "as_of" = some v := by
  intro S m hm
  by_cases h : r.symbol = "" ∨ r.key = ""
  · rw [fundStep_skip h] at hm
    exact hinv S m hm
  · rw [fundStep_go h] at hm
    by_cases hS : S = norm r.symbol
    · subst hS
      rw [alGet_alSet] at hm
      injection hm with hm
      subst hm
      by_cases hk : r.key = "as_of"
      · rw [hk, alGet_alSet]
        exact ⟨coerce r.value, rfl⟩
      · rw [alGet_alSet_ne _ _ _ _ (fun hc => hk hc.symm)]
        rcases hacc : alGet acc (norm r.symbol) with _ | m0
        · exact ⟨PyVal.vstr r.as_of, rfl⟩
        · exact hinv _ m0 hacc
    · rw [alGet_alSet_ne _ _ _ _ hS] at hm
      exact hinv S m hm

theorem fold_asof_invariant {norm : String → String}
    {coerce : Option String → PyVal} (rows : List FundRow) :
    ∀ acc, (∀ S m, alGet acc S = some m → ∃ v, alGet m "as_of" = some v) →
    ∀ S m, alGet (rows.foldl (fundStep norm coerce) acc) S = some m →
      ∃ v, alGet m "as_of" = some v := by
  induction rows with
  | nil => exact fun acc h => h
  | cons r rows ih =>
    intro acc h
    rw [List.foldl_cons]
    exact ih _ (fundStep_asof_invariant h)

/-- Presence of a symbol map is preserved by further steps. -/
theorem fundStep_preserves_present {norm : String → String}
    {coerce : Option String → PyVal}
    {acc : List (String × List (String × PyVal))} {S : String}
    (h : ∃ m, alGet acc S = some m) (r : FundRow) :
    ∃ m, alGet (fundStep norm coerce acc r) S = some m := by
  rcases h with ⟨m, hm⟩
  by_cases hsk : r.symbol = "" ∨ r.key = ""
  · rw [fundStep_skip hsk]
    exact ⟨m, hm⟩
  · rw [fundStep_go hsk]
    by_cases hS : S = norm r.symbol
    · subst hS
      rw [alGet_alSet]
      exact ⟨_, rfl⟩
    · rw [alGet_alSet_ne _ _ _ _ hS]
      exact ⟨m, hm⟩

theorem fold_preserves_present {norm : String → String}
    {coerce : Option String → PyVal} (rows : List FundRow) :
    ∀ acc S, (∃ m, alGet acc S = some m) →
    ∃ m, alGet (rows.foldl (fundStep norm coerce) acc) S = some m := by
  induction rows with
  | nil => exact fun acc S h => h
  | cons r rows ih =>
    intro acc S h
    rw [List.foldl_cons]
    exact ih _ S (fundStep_preserves_present h r)

/-- A valid row makes its normalized symbol present in the folded dict. -/
theorem fold_mem_present {norm : String → String}
    {coerce : Option String → PyVal} (rows : List FundRow) :
    ∀ acc (r : FundRow), r ∈ rows → ¬(r.symbol = "" ∨ r.key = "") →
    ∃ m, alGet (rows.foldl (fundStep norm coerce) acc) (norm r.symbol) = some m := by
  induction rows with
  | nil =>
    intro acc r h
    cases h
  | cons x rows ih =>
    intro acc r hmem hval
    rw [List.foldl_cons]
    rcases List.mem_cons.mp hmem with rfl | hmem'
    · apply fold_preserves_present
      rw [fundStep_go hval, alGet_alSet]
      exact ⟨_, rfl⟩
    · exact ih _ r hmem' hval

/-- The predicate picking the rows that write the `as_of` slot of symbol
`S`'s map. -/
def asofWriter (norm : String → String) (S : String) (t : FundRow) : Bool :=
  norm t.symbol = S ∧ t.key = "as_of" ∧ ¬(t.symbol = "")

/-- After the fold, the `as_of` slot of `S`'s map holds the coerced value
of the last row that wrote it. -/
theorem fold_asof_last {norm : String → String} {coerce : Option String → PyVal} :
    ∀ (rows : List FundRow) (acc : List (String × List (String × PyVal)))
      (S : String) (r : FundRow),
    (∀ S' m, alGet acc S' = some m → ∃ v, alGet m "as_of" = some v) →
    (rows.filter (asofWriter norm S)).getLast? = some r →
    ∃ m, alGet (rows.foldl (fundStep norm coerce) acc) S = some m ∧
      alGet m "as_of" = some (coerce r.value) := by
  intro rows
  induction rows using List.reverseRecOn with
  | nil =>
    intro acc S r _ h
    simp at h
  | append_singleton bs x ih =>
    intro acc S r hinv h
    rw [List.foldl_append, List.foldl_cons, List.foldl_nil]
    rw [List.filter_append] at h
    by_cases hx : asofWriter norm S x = true
    · rw [List.filter_cons_of_pos hx, List.filter_nil, List.getLast?_concat] at h
      injection h with h
      subst h
      have hx' : norm x.symbol = S ∧ x.key = "as_of" ∧ ¬(x.symbol = "") := by
        simpa [asofWriter] using hx
      rcases hx' with ⟨hS, hk, hs⟩
      have hval : ¬(x.symbol = "" ∨ x.key = "") := by
        intro hc
        rcases hc with hc | hc
        · exact hs hc
        · rw [hk] at hc
          exact absurd hc (by decide)
      rw [fundStep_go hval]
      subst hS
      rw [alGet_alSet]
      refine ⟨_, rfl, ?_⟩
      rw [hk, alGet_alSet]
    · rw [List.filter_cons_of_neg hx, List.filter_nil, List.append_nil] at h
      rcases ih acc S r hinv h with ⟨m, hm, hasof⟩
      by_cases hsk : x.symbol = "" ∨ x.key = ""
      · rw [fundStep_skip hsk]
        exact ⟨m, hm, hasof⟩
      · by_cases hS : norm x.symbol = S
        · have hknot : ¬(x.key = "as_of") := by
            intro hk
            apply hx
            simp only [asofWriter, hS, hk]
            have hs : ¬(x.symbol = "") := fun hc => hsk (Or.inl hc)
            simp [hs]
          rw [fundStep_go hsk]
          subst hS
          rw [alGet_alSet]
          refine ⟨_, rfl, ?_⟩
          rw [alGet_alSet_ne _ _ _ _ (fun hc => hknot hc.symm)]
          rw [hm, Option.getD_some]
          exact hasof
        · rw [fundStep_alGet_ne hS]
          exact ⟨m, hm, hasof⟩

/-! ### Claims C6 and C9 -/

/-- The coercion rule as the spec states it (§4.1 `fundamentalsFor`):
coerce stored text values to numeric when parseable — int if the value has
no fractional component — else leave as string.  Stated independently of
the source's `_coerce_value`, for comparison. -/
def specCoerceValue (v : Option String) : PyVal :=
  match v with
  | none => .vnone
  | some s =>
    match pyFloat? s with
    | some q => if q.den = 1 then .vint q.num else .vfloat q
    | none => .vstr s

/-- Claim C6, counterexample: the valuation engine's fundamentals read
(`_coerce_numeric`) coerces the stored text `"1.0"` to the float 1.0, not
the integer 1 — any parseable text containing a dot stays a float on that
path, refuting the claim's "prefer int" for the engine's read. -/
theorem fundamentals_coercion_c6_counterexample :
    coerce_numeric (some "1.0") = PyVal.vfloat 1 ∧
    ¬(PyVal.vfloat 1 = PyVal.vint 1) := by
  decide

/-- Claim C6 (amended): the store read path (`get_fundamentals`, via
`_coerce_value`) follows the spec's coercion rule — parseable text becomes
a number with int preferred when there is no fractional component (so
`"1.0"` becomes the integer 1), unparseable text stays a string — and a
symbol with no stored attributes is absent from the returned mapping (the
consumer's `.get(sym, {})` then yields the empty map); the valuation
engine's `_coerce_numeric`, however, returns a float for every parseable
text containing a dot, and an int only for dot-free integer text. -/
theorem fundamentals_coercion_c6 :
    (∀ v, coerce_value v = specCoerceValue v) ∧
    (∀ s q, '.' ∈ s.toList → pyFloat? s = some q →
      coerce_numeric (some s) = PyVal.vfloat q) ∧
    (∀ s z, ¬('.' ∈ s.toList) → pyInt? s = some z →
      coerce_numeric (some s) = PyVal.vint z) ∧
    (∀ (tbl : List FundRow) (syms : List String) (S : String),
      (∀ r ∈ tbl, ¬(normStr r.symbol = S)) →
      alGet (get_fundamentals tbl syms) S = none) := by
  refine ⟨?_, ?_, ?_, ?_⟩
  · intro v
    rcases v with _ | s
    · rfl
    · rcases hpf : pyFloat? s with _ | q <;>
        simp [coerce_value, specCoerceValue, hpf]
  · intro s q hdot hpf
    simp only [coerce_numeric]
    rw [if_pos hdot]
    simp only [hpf]
  · intro s z hdot hpi
    simp only [coerce_numeric]
    rw [if_neg hdot]
    simp only [hpi]
  · intro tbl syms S h
    unfold get_fundamentals
    rw [fold_alGet_none [] (fun r hr => h r (mem_processedRows hr))]
    rfl

/-- Witness for C6 (amended) at concrete coercions and a concrete store. -/
theorem fundamentals_coercion_c6_witness :
    coerce_value (some "1.0") = specCoerceValue (some "1.0") ∧
    coerce_numeric (some "2.5") = PyVal.vfloat (5 / 2) ∧
    coerce_numeric (some "42") = PyVal.vint 42 ∧
    alGet (get_fundamentals [⟨"MSFT", "pe", some "12", "T0"⟩] []) "AAPL" = none := by
  refine ⟨fundamentals_coercion_c6.1 (some "1.0"), ?_, ?_, ?_⟩
  · exact fundamentals_coercion_c6.2.1 "2.5" (5 / 2) (by decide) (by decide)
  · exact fundamentals_coercion_c6.2.2.1 "42" 42 (by decide) (by decide)
  · exact fundamentals_coercion_c6.2.2.2 [⟨"MSFT", "pe", some "12", "T0"⟩] [] "AAPL"
      (by decide)

/-- Claim C9, counterexample: with the single stored row
`(AAPL, as_of, "7", "T0")`, the returned map's `as_of` slot is the coerced
stored attribute (the integer 7), not the injected fetch timestamp
`"T0"` — the stored attribute overwrites the injected value, so the stored
attribute is never the one shadowed. -/
theorem fundamentals_asof_c9_counterexample :
    get_fundamentals [⟨"AAPL", "as_of", some "7", "T0"⟩] []
      = [("AAPL", [("as_of", PyVal.vint 7)])] ∧
    ¬(PyVal.vint 7 = PyVal.vstr "T0") := by
  decide

/-- Every symbol map produced by `_fetch_fundamentals_for` (the valuation
engine's fundamentals read) contains the injected key `as_of`. -/
theorem fetch_fundamentals_for_asof (tbl : List FundRow) (tickers : List String) :
    ∀ S m, alGet (fetch_fundamentals_for tbl tickers) S = some m →
      ∃ v, alGet m "as_of" = some v := by
  intro S m hm
  unfold fetch_fundamentals_for at hm
  by_cases ht : tickers = []
  · rw [if_pos ht] at hm
    exact absurd hm (by simp [alGet])
  · rw [if_neg ht] at hm
    exact fold_asof_invariant _ []
      (by intro S' m' h; exact absurd h (by simp [alGet])) S m hm

/-- Every pre-weight snapshot holding's fundamentals map comes from the
`_fetch_fundamentals_for` lookup for some ticker (empty when absent). -/
theorem hs1_fundamentals {st : DBState} {h : HoldingOut} (hm : h ∈ hs1Of st) :
    ∃ t, h.fundamentals = (alGet (fmapOf st) (normStr t)).getD [] := by
  unfold hs1Of at hm
  rcases List.mem_map.mp hm with ⟨h1, _, rfl⟩
  exact ⟨h1.ticker, rfl⟩

/-- The weight pass does not change a holding's fundamentals map. -/
theorem weighted_fundamentals {st : DBState} {h : HoldingOut}
    (hm : h ∈ weightedHoldings st) :
    ∃ t, h.fundamentals = (alGet (fmapOf st) (normStr t)).getD [] := by
  unfold weightedHoldings at hm
  by_cases hT : totalValueOf st = 0
  · rw [if_pos hT] at hm
    exact hs1_fundamentals hm
  · rw [if_neg hT] at hm
    rcases List.mem_map.mp hm with ⟨h0, hm0, rfl⟩
    rcases hs1_fundamentals hm0 with ⟨t, ht⟩
    exact ⟨t, ht⟩

/-- Claim C9 (amended): both fundamentals read paths inject the reserved
key `as_of` into every symbol's returned map — on `get_fundamentals` every
valid processed row makes its symbol's map exist and contain `as_of`, on
the engine's `_fetch_fundamentals_for` likewise, and hence every
fundamentals map attached to a holding by `get_portfolio_data` is either
empty (no stored attributes) or contains `as_of` — but when stored
attributes literally named `as_of` exist for the symbol, the map's `as_of`
slot holds the coerced value of the last such row on either path: the
stored attribute overwrites (shadows) the injected timestamp, not the
other way round. -/
theorem fundamentals_asof_c9 (tbl : List FundRow) (syms : List String)
    (tickers : List String) (S : String) :
    (∀ r, r ∈ processedRows tbl syms → ¬(r.symbol = "" ∨ r.key = "") →
      ∃ m, alGet (get_fundamentals tbl syms) (normStr r.symbol) = some m ∧
        ∃ v, alGet m "as_of" = some v) ∧
    (∀ r, ((processedRows tbl syms).filter (asofWriter normStr S)).getLast? = some r →
      ∃ m, alGet (get_fundamentals tbl syms) S = some m ∧
        alGet m "as_of" = some (coerce_value r.value)) ∧
    (∀ r, ¬(tickers = []) →
      r ∈ tbl.filter (fun t => (tickers.map normStr).contains t.symbol) →
      ¬(r.symbol = "" ∨ r.key = "") →
      ∃ m, alGet (fetch_fundamentals_for tbl tickers) r.symbol = some m ∧
        ∃ v, alGet m "as_of" = some v) ∧
    (∀ r, ¬(tickers = []) →
      ((tbl.filter (fun t => (tickers.map normStr).contains t.symbol)).filter
        (asofWriter id S)).getLast? = some r →
      ∃ m, alGet (fetch_fundamentals_for tbl tickers) S = some m ∧
        alGet m "as_of" = some (coerce_numeric r.value)) ∧
    (∀ (st : DBState) (f : Option (Summary × List HoldingOut → FormulaOutcome))
        (h : HoldingOut), h ∈ (get_portfolio_data st f).holdings →
      h.fundamentals = [] ∨ ∃ v, alGet h.fundamentals "as_of" = some v) := by
  refine ⟨?_, ?_, ?_, ?_, ?_⟩
  · intro r hmem hval
    rcases fold_mem_present (processedRows tbl syms) [] r hmem hval with ⟨m, hm⟩
    refine ⟨m, hm, ?_⟩
    exact fold_asof_invariant (processedRows tbl syms) []
      (by intro S' m' h; exact absurd h (by simp [alGet])) (normStr r.symbol) m hm
  · intro r hlast
    exact fold_asof_last (processedRows tbl syms) [] S r
      (by intro S' m' h; exact absurd h (by simp [alGet])) hlast
  · intro r htk hmem hval
    have hfold : fetch_fundamentals_for tbl tickers
        = (tbl.filter (fun t => (tickers.map normStr).contains t.symbol)).foldl
            (fundStep id coerce_numeric) [] := by
      unfold fetch_fundamentals_for
      rw [if_neg htk]
    rw [hfold]
    rcases fold_mem_present
        (tbl.filter (fun t => (tickers.map normStr).contains t.symbol)) [] r
        hmem hval with ⟨m, hm⟩
    refine ⟨m, hm, ?_⟩
    exact fold_asof_invariant
      (tbl.filter (fun t => (tickers.map normStr).contains t.symbol)) []
      (by intro S' m' h; exact absurd h (by simp [alGet])) (id r.symbol) m hm
  · intro r htk hlast
    have hfold : fetch_fundamentals_for tbl tickers
        = (tbl.filter (fun t => (tickers.map normStr).contains t.symbol)).foldl
            (fundStep id coerce_numeric) [] := by
      unfold fetch_fundamentals_for
      rw [if_neg htk]
    rw [hfold]
    exact fold_asof_last
      (tbl.filter (fun t => (tickers.map normStr).contains t.symbol)) [] S r
      (by intro S' m' h; exact absurd h (by simp [alGet])) hlast
  · intro st f h hm
    rw [get_portfolio_data_holdings] at hm
    rcases weighted_fundamentals hm with ⟨t, ht⟩
    rcases halg : alGet (fmapOf st) (normStr t) with _ | m
    · rw [halg] at ht
      exact Or.inl ht
    · rw [halg] at ht
      have halg2 : alGet (fetch_fundamentals_for st.fundamentals
          ((sortedHoldings st).map (fun h0 => h0.ticker))) (normStr t) = some m := halg
      rcases fetch_fundamentals_for_asof st.fundamentals
          ((sortedHoldings st).map (fun h0 => h0.ticker)) (normStr t) m halg2
        with ⟨v, hv⟩
      exact Or.inr ⟨v, ht ▸ hv⟩

/-- Witness for C9 at a concrete store holding both a regular attribute and
a stored attribute literally named `as_of`, exercised on the
`get_fundamentals` path, the `_fetch_fundamentals_for` path, and through a
snapshot holding's attached map. -/
theorem fundamentals_asof_c9_witness :
    (∃ m, alGet (get_fundamentals
        [⟨"AAPL", "pe", some "30", "T0"⟩, ⟨"AAPL", "as_of", some "X", "T0"⟩] [])
        (normStr "AAPL") = some m ∧ ∃ v, alGet m "as_of" = some v) ∧
    (∃ m, alGet (get_fundamentals
        [⟨"AAPL", "pe", some "30", "T0"⟩, ⟨"AAPL", "as_of", some "X", "T0"⟩] [])
        "AAPL" = some m ∧
      alGet m "as_of" = some (coerce_value (some "X"))) ∧
    (∃ m, alGet (fetch_fundamentals_for
        [⟨"AAPL", "pe", some "30", "T0"⟩, ⟨"AAPL", "as_of", some "X", "T0"⟩]
        ["aapl"]) "AAPL" = some m ∧ ∃ v, alGet m "as_of" = some v) ∧
    (∃ m, alGet (fetch_fundamentals_for
        [⟨"AAPL", "pe", some "30", "T0"⟩, ⟨"AAPL", "as_of", some "X", "T0"⟩]
        ["aapl"]) "AAPL" = some m ∧
      alGet m "as_of" = some (coerce_numeric (some "X"))) ∧
    (HoldingOut.fundamentals ⟨"AAPL", 1, 1, 0, 0, 1, -1, -100,
        [("as_of", PyVal.vstr "X"), ("pe", PyVal.vint 30)], 0⟩ = [] ∨
      ∃ v, alGet (HoldingOut.fundamentals ⟨"AAPL", 1, 1, 0, 0, 1, -1, -100,
        [("as_of", PyVal.vstr "X"), ("pe", PyVal.vint 30)], 0⟩) "as_of" = some v) := by
  refine ⟨?_, ?_, ?_, ?_, ?_⟩
  · exact (fundamentals_asof_c9
      [⟨"AAPL", "pe", some "30", "T0"⟩, ⟨"AAPL", "as_of", some "X", "T0"⟩] []
      ["aapl"] "AAPL").1 ⟨"AAPL", "pe", some "30", "T0"⟩ (by decide) (by decide)
  · exact (fundamentals_asof_c9
      [⟨"AAPL", "pe", some "30", "T0"⟩, ⟨"AAPL", "as_of", some "X", "T0"⟩] []
      ["aapl"] "AAPL").2.1 ⟨"AAPL", "as_of", some "X", "T0"⟩ (by decide)
  · exact (fundamentals_asof_c9
      [⟨"AAPL", "pe", some "30", "T0"⟩, ⟨"AAPL", "as_of", some "X", "T0"⟩] []
      ["aapl"] "AAPL").2.2.1 ⟨"AAPL", "pe", some "30", "T0"⟩ (by decide) (by decide)
      (by decide)
  · exact (fundamentals_asof_c9
      [⟨"AAPL", "pe", some "30", "T0"⟩, ⟨"AAPL", "as_of", some "X", "T0"⟩] []
      ["aapl"] "AAPL").2.2.2.1 ⟨"AAPL", "as_of", some "X", "T0"⟩ (by decide)
      (by decide)
  · exact (fundamentals_asof_c9
      [⟨"AAPL", "pe", some "30", "T0"⟩, ⟨"AAPL", "as_of", some "X", "T0"⟩] []
      ["aapl"] "AAPL").2.2.2.2
      ⟨[⟨"AAPL", 1, 1, "t0"⟩], [], [],
        [⟨"AAPL", "pe", some "30", "T0"⟩, ⟨"AAPL", "as_of", some "X", "T0"⟩]⟩ none
      ⟨"AAPL", 1, 1, 0, 0, 1, -1, -100,
        [("as_of", PyVal.vstr "X"), ("pe", PyVal.vint 30)], 0⟩ (by decide)

end Magma
